import Mathlib

/-!
# Lab engine music glue (`engines/lab/music.cpp`)

A shallow embedding of `Lab::Music`.  The object's fields and the parts of the
engine it touches are one record, `Lab.State`; the mixer, the resource manager
and the engine event pump are collaborators that are not part of these sources,
so every call made on them is appended to `State.calls`, and the answers they
give are taken from an environment `Lab.Env`.
-/

namespace Lab

/-! ## Constants -/

/-- The macro `SAMPLESPEED`. -/
def SAMPLESPEED : Nat := 15000

/-- The macro `CLOWNROOM`. -/
def CLOWNROOM : Nat := 123

/-- The macro `DIMROOM`. -/
def DIMROOM : Nat := 80

/-- The signature `readSound` compares the first word with. -/
def SOUNDMAGIC : Nat := 1219009121

/-- The tag that ends the chunk loop of `readSound`. -/
def ENDTAG : Nat := 65535

/-- The platforms `getPlatform()` is compared with, and any other one. -/
inductive Platform
  | kPlatformDOS
  | kPlatformWindows
  | kPlatformAmiga
  | kPlatformOther
  deriving DecidableEq, Repr

/-- The bit set returned by `getSoundFlags`, one field per `Audio::FLAG_*` bit
the function can set. -/
structure SoundFlags where
  littleEndian : Bool
  sixteenBits : Bool
  unsignedSamples : Bool
  deriving DecidableEq, Repr

/-- A model of `Common::File`, which is declared outside these sources: the bytes
of the file and the read position. -/
structure File where
  data : List Nat
  pos : Nat
  deriving DecidableEq, Repr

/-- The two mixer handles of `Music`. -/
inductive Handle
  | music
  | sfx
  deriving DecidableEq, Repr

/-- The two `Audio::Mixer` sound types used. -/
inductive SoundType
  | kMusicSoundType
  | kSFXSoundType
  deriving DecidableEq, Repr

/-- What a raw stream plays from: an open file (`makeRawStream(_musicFile, ...)`,
possibly the null pointer) or a memory buffer of `size` bytes into which
`bytes` were read (`makeRawStream(soundData, length, ...)`). -/
inductive Source
  | stream (f : Option File)
  | buffer (size : Nat) (bytes : List Nat)
  deriving DecidableEq, Repr

/-- An `Audio::LoopingAudioStream` around a raw stream: the source, sample rate
and flags of the raw stream, and the loop count. -/
structure LoopingAudioStream where
  source : Source
  rate : Nat
  flags : SoundFlags
  loops : Nat
  deriving DecidableEq, Repr

/-- A call made on a collaborator (mixer, engine, logging). -/
inductive Call
  | stopHandle (h : Handle)
  | pauseHandle (h : Handle) (paused : Bool)
  | playStream (t : SoundType) (h : Handle) (s : LoopingAudioStream)
  | updateEvents
  | waitTOF
  | warning (msg : String)
  deriving DecidableEq, Repr

/-- What the collaborators answer: the platform, the resource manager
(`openDataFile(filename, fileHeader)`, `none` for the null pointer), and the
mixer's answer to the `k`-th `isSoundHandleActive(_sfxHandle)` query. -/
structure Env where
  platform : Platform
  openDataFile : String → Nat → Option File
  active : Nat → Bool

/-- The fields of `Music` (`musicFile`, `musicPaused`, `curRoomMusic`,
`storedPos`), the engine fields it reads or writes (`_vm->_roomNum`,
`_vm->_anim->_doBlack`), the calls made so far and the number of
`isSoundHandleActive` queries made so far. -/
structure State where
  musicFile : Option File
  musicPaused : Bool
  curRoomMusic : Nat
  storedPos : Nat
  roomNum : Nat
  doBlack : Bool
  calls : List Call
  queries : Nat
  deriving DecidableEq, Repr

/-- Why a run did not reach its `return`. -/
inductive Stop
  | shortRead
  | outOfFuel
  deriving DecidableEq, Repr

/-- The outcome of a run: it returned `a` in state `w`, or it stopped in state
`w` (a read past the end of the file, whose value the source leaves
indeterminate, or a loop that used up its fuel). -/
inductive Res (α : Type)
  | ret (a : α) (w : State)
  | stop (why : Stop) (w : State)
  deriving DecidableEq, Repr

/-- The state a run ended in. -/
def Res.state {α : Type} : Res α → State
  | .ret _ w => w
  | .stop _ w => w

/-! ## File reads -/

/-- The bytes from the read position on. -/
def File.rest (f : File) : List Nat := f.data.drop f.pos

/-- Little-endian value of a byte list. -/
def leValue : List Nat → Nat
  | [] => 0
  | b :: bs => b % 256 + 256 * leValue bs

/-- The method `readUint32LE`: `none` when fewer than four bytes are left. -/
def File.readUint32LE (f : File) : Option (Nat × File) :=
  if 4 ≤ f.rest.length then
    some (leValue (f.rest.take 4), { f with pos := f.pos + 4 })
  else none

/-- The method `readUint16LE`: `none` when fewer than two bytes are left. -/
def File.readUint16LE (f : File) : Option (Nat × File) :=
  if 2 ≤ f.rest.length then
    some (leValue (f.rest.take 2), { f with pos := f.pos + 2 })
  else none

/-- The method `skip(n)`: moves the read position `n` bytes on. -/
def File.skip (f : File) (n : Nat) : File := { f with pos := f.pos + n }

/-- The method `seek(p)`: sets the read position. -/
def File.seek (f : File) (p : Nat) : File := { f with pos := p }

/-- The method `read(buf, n)`: the bytes read (at most `n`, fewer at the end of
the file) and the file after them. -/
def File.read (f : File) (n : Nat) : List Nat × File :=
  (f.rest.take n, { f with pos := f.pos + (f.rest.take n).length })

/-! ## The methods of `Music` -/

/-- The constructor `Music::Music`, in an engine whose room number and
`_doBlack` flag are given. -/
def Music.new (roomNum : Nat) (doBlack : Bool) : State :=
  { musicFile := none, musicPaused := false, curRoomMusic := 1, storedPos := 0,
    roomNum := roomNum, doBlack := doBlack, calls := [], queries := 0 }

/-- The method `Music::getSoundFlags`. -/
def getSoundFlags (env : Env) : SoundFlags :=
  if env.platform = Platform.kPlatformWindows then
    { littleEndian := true, sixteenBits := true, unsignedSamples := false }
  else if env.platform = Platform.kPlatformDOS then
    { littleEndian := true, sixteenBits := false, unsignedSamples := true }
  else
    { littleEndian := true, sixteenBits := false, unsignedSamples := false }

/-- Appends one collaborator call. -/
def State.call (w : State) (c : Call) : State := { w with calls := w.calls ++ [c] }

/-- The method `Music::isSoundEffectActive`: one query to the mixer. -/
def isSoundEffectActive (env : Env) (w : State) : Bool × State :=
  (env.active w.queries, { w with queries := w.queries + 1 })

/-- The method `Music::stopSoundEffect`. -/
def stopSoundEffect (env : Env) (w : State) : State :=
  let q := isSoundEffectActive env w
  if q.1 then q.2.call (Call.stopHandle Handle.sfx) else q.2

/-- The method `Music::freeMusic`. -/
def freeMusic (w : State) : State :=
  { ((w.call (Call.stopHandle Handle.music)).call (Call.stopHandle Handle.sfx)) with
    musicPaused := false, musicFile := none }

/-- The method `Music::pauseBackMusic`. -/
def pauseBackMusic (env : Env) (w : State) : State :=
  if w.musicPaused = false then
    { ((stopSoundEffect env w).call (Call.pauseHandle Handle.music true)) with
      musicPaused := true }
  else w

/-- The method `Music::resumeBackMusic`. -/
def resumeBackMusic (env : Env) (w : State) : State :=
  if w.musicPaused = true then
    { ((stopSoundEffect env w).call (Call.pauseHandle Handle.music false)) with
      musicPaused := false }
  else w

/-- The method `Music::changeMusic`.  `none` is a dereference of a null
`_musicFile` (`pos()` or `seek()` on it). -/
def changeMusic (env : Env) (filename : String) (storeCurPos seektoStoredPos : Bool)
    (w : State) : Option State :=
  if storeCurPos = true ∧ w.musicFile = none then none
  else
    let w1 : State :=
      if storeCurPos then
        { w with storedPos := (match w.musicFile with
                               | some f => f.pos % 4294967296
                               | none => w.storedPos) }
      else w
    let w2 : State := { w1 with musicPaused := false }
    let w3 := stopSoundEffect env w2
    let w4 := freeMusic w3
    let w5 : State := { w4 with musicFile := env.openDataFile filename 0 }
    if seektoStoredPos = true ∧ w5.musicFile = none then none
    else
      let w6 : State :=
        if seektoStoredPos then
          { w5 with musicFile := w5.musicFile.map (fun f => f.seek w5.storedPos) }
        else w5
      some (w6.call (Call.playStream SoundType.kMusicSoundType Handle.music
        { source := Source.stream w6.musicFile, rate := SAMPLESPEED,
          flags := getSoundFlags env, loops := 0 }))

/-- The method `Music::playSoundEffect`; returns the data file after the read. -/
def playSoundEffect (env : Env) (sampleSpeed length : Nat) (loop : Bool) (dataFile : File)
    (w : State) : File × State :=
  let w1 := pauseBackMusic env w
  let w2 := stopSoundEffect env w1
  let speed := if sampleSpeed < 4000 then 4000 else sampleSpeed
  let r := dataFile.read length
  let loops := if loop then 0 else 1
  (r.2, w2.call (Call.playStream SoundType.kSFXSoundType Handle.sfx
    { source := Source.buffer length r.1, rate := speed,
      flags := getSoundFlags env, loops := loops }))

/-- The method `Music::checkRoomMusic`. -/
def checkRoomMusic (env : Env) (w : State) : Option State :=
  if w.curRoomMusic = w.roomNum ∨ w.musicFile = none then some w
  else
    let r : Option State :=
      if w.roomNum = CLOWNROOM then changeMusic env "Music:Laugh" true false w
      else if w.roomNum = DIMROOM then changeMusic env "Music:Rm81" true false w
      else if w.curRoomMusic = CLOWNROOM ∨ w.curRoomMusic = DIMROOM then
        if env.platform ≠ Platform.kPlatformAmiga then
          changeMusic env "Music:Backgrou" false true w
        else
          changeMusic env "Music:Background" false true w
      else some w
    r.map (fun w1 => { w1 with curRoomMusic := w1.roomNum })

/-- The loop `while (isSoundEffectActive()) { updateEvents(); waitTOF(); }`. -/
def waitSoundEffect (env : Env) : Nat → State → Res Unit
  | fuel, w =>
    let q := isSoundEffectActive env w
    if q.1 then
      match fuel with
      | 0 => Res.stop Stop.outOfFuel q.2
      | n + 1 => waitSoundEffect env n ((q.2.call Call.updateEvents).call Call.waitTOF)
    else Res.ret () q.2

/-- The loop `while (soundTag != 65535)` of `Music::readSound`, entered with
the current `soundTag`. -/
def readSoundLoop (env : Env) (waitTillFinished loop : Bool) :
    Nat → Nat → File → State → Res File
  | fuel, soundTag, file, w =>
    if soundTag = ENDTAG then Res.ret file w
    else
      match fuel with
      | 0 => Res.stop Stop.outOfFuel w
      | n + 1 =>
        let w1 := w.call Call.updateEvents
        match file.readUint32LE with
        | none => Res.stop Stop.shortRead w1
        | some (tag, f1) =>
          match f1.readUint32LE with
          | none => Res.stop Stop.shortRead w1
          | some (sz, f2) =>
            let soundSize := (sz + 4294967296 - 8) % 4294967296
            if tag = 30 ∨ tag = 31 then
              match (if waitTillFinished then waitSoundEffect env n w1 else Res.ret () w1) with
              | Res.stop why w2 => Res.stop why w2
              | Res.ret _ w2 =>
                let f3 := f2.skip 4
                match f3.readUint16LE with
                | none => Res.stop Stop.shortRead w2
                | some (sampleRate, f4) =>
                  let f5 := f4.skip 2
                  let p := playSoundEffect env sampleRate soundSize loop f5 w2
                  readSoundLoop env waitTillFinished loop n tag p.1 p.2
            else if tag = ENDTAG then
              match (if waitTillFinished then waitSoundEffect env n w1 else Res.ret () w1) with
              | Res.stop why w2 => Res.stop why w2
              | Res.ret _ w2 => readSoundLoop env waitTillFinished loop n tag f2 w2
            else
              readSoundLoop env waitTillFinished loop n tag (f2.skip soundSize) w1

/-- The method `Music::readSound`; returns the file as it was left. -/
def readSound (env : Env) (fuel : Nat) (waitTillFinished loop : Bool) (file : File)
    (w : State) : Res File :=
  match file.readUint32LE with
  | none => Res.stop Stop.shortRead w
  | some (magicBytes, f1) =>
    if magicBytes ≠ SOUNDMAGIC then
      Res.ret f1 (w.call (Call.warning "readSound: Bad signature, skipping"))
    else
      match f1.readUint32LE with
      | none => Res.stop Stop.shortRead w
      | some (soundTag, f2) =>
        match f2.readUint32LE with
        | none => Res.stop Stop.shortRead w
        | some (soundSize, f3) =>
          if soundTag = 0 then
            readSoundLoop env waitTillFinished loop fuel soundTag (f3.skip soundSize) w
          else Res.ret f3 w

/-- The `pauseHandle(_musicHandle, p)` calls of a call list, in order. -/
def pauseCalls : List Call → List Bool
  | [] => []
  | Call.pauseHandle Handle.music p :: cs => p :: pauseCalls cs
  | _ :: cs => pauseCalls cs

/-- Whether a list of booleans alternates, starting with `b`. -/
def alternates : Bool → List Bool → Bool
  | _, [] => true
  | b, x :: xs => x == b && alternates (!b) xs

/-- A call of `pauseBackMusic` or of `resumeBackMusic`. -/
inductive PauseOp
  | pause
  | resume
  deriving DecidableEq, Repr

/-- Runs one call. -/
def PauseOp.run (env : Env) (w : State) : PauseOp → State
  | PauseOp.pause => pauseBackMusic env w
  | PauseOp.resume => resumeBackMusic env w

/-- Runs a sequence of calls, first to last. -/
def runPauseOps (env : Env) (ops : List PauseOp) (w : State) : State :=
  ops.foldl (PauseOp.run env) w

/-- The start states of the pause state machine: a freshly constructed `Music`,
the state right after `freeMusic`, or the state right after `changeMusic`. -/
def FreshlyUnpaused (env : Env) (w0 : State) : Prop :=
  (∃ r d, w0 = Music.new r d) ∨ (∃ w, w0 = freeMusic w) ∨
    (∃ n s k w, changeMusic env n s k w = some w0)

/-- An environment with no data files and a mixer that reports the sound
effect handle inactive (DOS platform). -/
def quietEnv : Env :=
  { platform := Platform.kPlatformDOS, openDataFile := fun _ _ => none, active := fun _ => false }

/-- The engine moves to room `r`. -/
def enterRoom (r : Nat) (w : State) : State := { w with roomNum := r }

/-- The mixer consumes `n` more bytes of the playing music file. -/
def mixerAdvance (n : Nat) (w : State) : State :=
  { w with musicFile := w.musicFile.map (fun f => f.skip n) }

/-- An environment whose resource manager knows the three music tracks, each
with its own contents (Windows platform, sound effect handle inactive). -/
def trackEnv : Env :=
  { platform := Platform.kPlatformWindows
    openDataFile := fun name _ =>
      if name = "Music:Laugh" then some { data := [11, 12, 13, 14], pos := 0 }
      else if name = "Music:Rm81" then some { data := [21, 22, 23, 24], pos := 0 }
      else if name = "Music:Backgrou" then some { data := [1, 2, 3, 4, 5, 6, 7, 8], pos := 0 }
      else none
    active := fun _ => false }

/-- The engine in room 1 with the background track playing, six bytes in. -/
def backgroundPlaying : State :=
  { Music.new 1 false with musicFile := some { data := [1, 2, 3, 4, 5, 6, 7, 8], pos := 6 } }

/-- The engine in room 123 with the Laugh track playing, three bytes in, and
the background position 6 stored. -/
def laughPlaying : State :=
  { Music.new 123 false with
    musicFile := some { data := [11, 12, 13, 14], pos := 3 }
    curRoomMusic := 123
    storedPos := 6 }

/-- The collaborator calls of starting a track from state `w`, `file` being what
the resource manager returned: the sound effect is stopped when the mixer
reports it active, both handles are stopped, and a stream over `file` is played
on the music handle at 15000 Hz, as music, not looping. -/
def trackCalls (env : Env) (w : State) (file : Option File) : List Call :=
  (if env.active w.queries = true then [Call.stopHandle Handle.sfx] else []) ++
    [Call.stopHandle Handle.music, Call.stopHandle Handle.sfx,
     Call.playStream SoundType.kMusicSoundType Handle.music
       { source := Source.stream file, rate := 15000, flags := getSoundFlags env, loops := 0 }]

/-- The streams played on the sound effect handle, in order. -/
def sfxStreams : List Call → List LoopingAudioStream
  | [] => []
  | Call.playStream _ Handle.sfx s :: cs => s :: sfxStreams cs
  | _ :: cs => sfxStreams cs

/-- The four bytes of a 32-bit value, least significant first. -/
def le32 (v : Nat) : List Nat :=
  [v % 256, v / 256 % 256, v / 65536 % 256, v / 16777216 % 256]

/-- A file that does not start with the signature. -/
def badSignatureFile : File := { data := le32 7 ++ le32 0 ++ le32 0, pos := 0 }

/-- A file with the signature and a header tag other than 0. -/
def badHeaderFile : File := { data := le32 1219009121 ++ le32 5 ++ le32 0 ++ [1, 2], pos := 0 }

/-- A chunk of a sound file: the tag and size words and the bytes that follow
them. -/
structure Chunk where
  tag : Nat
  size : Nat
  body : List Nat
  deriving DecidableEq, Repr

/-- Whether the chunk is tagged 30 or 31. -/
def Chunk.isSound (c : Chunk) : Bool := decide (c.tag = 30 ∨ c.tag = 31)

/-- The value `(size - 8) mod 2^32`. -/
def Chunk.length (c : Chunk) : Nat := (c.size + 4294967296 - 8) % 4294967296

/-- The 16-bit little-endian word that follows the first four bytes of the body. -/
def Chunk.sampleRate (c : Chunk) : Nat := leValue ((c.body.drop 4).take 2)

/-- The bytes of the chunk in the file. -/
def Chunk.bytes (c : Chunk) : List Nat := le32 c.tag ++ le32 c.size ++ c.body

/-- A chunk before the end chunk: tag and size are 32-bit words, the tag is not
65535, and the body is `(size - 8) mod 2^32` bytes, preceded in a sound chunk by
the eight bytes that hold the sample rate. -/
def Chunk.WellFormed (c : Chunk) : Prop :=
  c.tag < 4294967296 ∧ c.tag ≠ 65535 ∧ c.size < 4294967296 ∧
    c.body.length = (if c.isSound = true then 8 + c.length else c.length)

/-- The bytes of a sequence of chunks. -/
def chunkBytes : List Chunk → List Nat
  | [] => []
  | c :: cs => c.bytes ++ chunkBytes cs

/-- A sound file: signature, header tag 0, header size and header, the chunks,
and the end chunk. -/
def soundFileBytes (header : List Nat) (chunks : List Chunk) (endSize : Nat) : List Nat :=
  le32 1219009121 ++ le32 0 ++ le32 header.length ++ header ++
    chunkBytes chunks ++ (le32 65535 ++ le32 endSize)

/-- The effect of one chunk that starts at the read position: a sound chunk is played by `playSoundEffect` with the chunk's sample
rate and length, from the file sixteen bytes on; any other chunk is skipped. -/
def chunkStep (env : Env) (loop : Bool) (fw : File × State) (c : Chunk) : File × State :=
  if c.isSound = true then
    playSoundEffect env c.sampleRate c.length loop (fw.1.skip 16) (fw.2.call Call.updateEvents)
  else (fw.1.skip (8 + c.length), fw.2.call Call.updateEvents)

/-- The stream a sound chunk is played as. -/
def chunkStream (env : Env) (loop : Bool) (c : Chunk) : LoopingAudioStream :=
  { source := Source.buffer c.length (c.body.drop 8), rate := max c.sampleRate 4000,
    flags := getSoundFlags env, loops := if loop = true then 0 else 1 }

instance (c : Chunk) : Decidable c.WellFormed := by
  unfold Chunk.WellFormed
  infer_instance

/-- Two chunks before the end chunk: one with tag 5 and one sound chunk. -/
def sampleChunks : List Chunk :=
  [{ tag := 5, size := 10, body := [1, 2] },
   { tag := 30, size := 11, body := [0, 0, 0, 0, 16, 39, 0, 0, 7, 8, 9] }]

/-- Runs `checkRoomMusic` after the mixer has consumed `adv` more bytes of the
playing track and the engine has moved to `room`. -/
def visit (env : Env) (adv room : Nat) (w : State) : Option State :=
  checkRoomMusic env (enterRoom room (mixerAdvance adv w))

end Lab

/-!
# Lua state persistence (`engines/sword25/util/lua_persistence.h`)

The header declares `persistLua` and `unpersistLua` and defines
`PERMANENT_TYPE`; the bodies are not part of these sources.  The definitions
below are written from the specification: the value graph of an interpreter
(sections 3 and 4.1), the Permanent Registry (4.2), the Identity Table (4.3),
the Encoder (4.4), the Decoder (4.5) and the record stream (6).  The stream is
kept at the level of the tagged records of section 6: how a record is laid out
in bytes, and the header, belong to the Stream Transport.
-/

namespace Lua

/-- The macro `PERMANENT_TYPE`, the type tag of a permanent object. -/
def PERMANENT_TYPE : Nat := 101

/-- Modelled from the spec: the error taxonomy of section 7, the bodies of
`persistLua` and `unpersistLua` being absent.  `AdapterError` is the adapter's
failure of section 4.1; `OutOfFuel` is not an error of the specification: it
marks a walk cut short by the bound of this model, and is never returned. -/
inductive Error
  | UnsupportedValue
  | DuplicateIdentifier
  | UnknownPermanent
  | DanglingReference
  | IOError
  | AdapterError
  | OutOfFuel
  deriving DecidableEq, Repr

/-- Modelled from the spec: part of the error handling of section 7, absent from
the sources: the result of a fallible operation. -/
inductive Result (α : Type)
  | ok (a : α)
  | error (e : Error)
  deriving DecidableEq, Repr

/-- The identity of a heap-allocated value: its address in the heap. -/
abbrev Addr := Nat

/-- Modelled from the spec: the `Value` of section 3, absent from the sources.
Nil and the scalars carry their content; a table, closure, userdata or
permanent object is a reference to a heap object and has identity. -/
inductive Value
  | nil
  | boolean (b : Bool)
  | integer (i : Int)
  | float (bits : Nat)
  | string (bytes : List Nat)
  | ref (a : Addr)
  deriving DecidableEq, Repr

/-- Modelled from the spec: part of the stream format of section 6, absent from
the sources: the kinds of compound object the stream can hold. -/
inductive ObjKind
  | table
  | closure
  deriving DecidableEq, Repr

/-- Modelled from the spec: a heap object as the Value Model Adapter of
section 4.1 shows it, absent from the sources: a table with its metatable
(`Value.nil` when it has none) and its key/value pairs in enumeration order, a
closure with its code reference and its upvalues in capture order, or an opaque
userdata, for which there is no serialization rule. -/
inductive Obj
  | table (metatable : Value) (entries : List (Value × Value))
  | closure (code : Nat) (upvalues : List Value)
  | userdata (tag : Nat)
  deriving DecidableEq, Repr

/-- Modelled from the spec: an interpreter instance as the persistence core
sees it, absent from the sources: the heap of objects, addressed by position,
and the Permanent Registry of section 4.2, a list of (identifier, object)
entries. -/
structure Interp where
  heap : List Obj
  registry : List (String × Addr)
  deriving DecidableEq, Repr

/-- Modelled from the spec: `lookupByObject` of section 4.2, absent from the
sources. -/
def lookupByObject (reg : List (String × Addr)) (a : Addr) : Option String :=
  match reg with
  | [] => none
  | (id, b) :: rest => if b = a then some id else lookupByObject rest a

/-- Modelled from the spec: `lookupByIdentifier` of section 4.2, absent from
the sources. -/
def lookupByIdentifier (reg : List (String × Addr)) (id : String) : Option Addr :=
  match reg with
  | [] => none
  | (id1, b) :: rest => if id1 = id then some b else lookupByIdentifier rest id

/-- Modelled from the spec: `register` of section 4.2, absent from the sources;
registering an identifier twice fails with `DuplicateIdentifier`. -/
def register (reg : List (String × Addr)) (id : String) (a : Addr) :
    Result (List (String × Addr)) :=
  match lookupByIdentifier reg id with
  | some _ => Result.error Error.DuplicateIdentifier
  | none => Result.ok (reg ++ [(id, a)])

/-- Modelled from the spec: a tagged record of the stream body of section 6,
absent from the sources.  `object` opens a compound object, whose children
follow up to the matching `terminator`; `codeRef` is the code reference of a
closure. -/
inductive Record
  | nil
  | boolean (b : Bool)
  | integer (i : Int)
  | float (bits : Nat)
  | string (bytes : List Nat)
  | permanentRef (id : String)
  | backRef (index : Nat)
  | object (index : Nat) (kind : ObjKind)
  | codeRef (code : Nat)
  | terminator
  deriving DecidableEq, Repr

/-! ## Encoder -/

/-- Modelled from the spec: part of the Encoder of section 4.4, absent from the
sources: the key/value pairs of a table as a sequence of children. -/
def flatten : List (Value × Value) → List Value
  | [] => []
  | (k, v) :: es => k :: v :: flatten es

/-- Modelled from the spec: part of the Encoder of section 4.4, absent from the
sources: the children of an object in the order the encoder emits them: a
table's metatable and then its entries, a closure's upvalues. -/
def Obj.children : Obj → List Value
  | Obj.table m es => m :: flatten es
  | Obj.closure _ ups => ups
  | Obj.userdata _ => []

/-- Modelled from the spec: part of the Encoder of section 4.4, absent from the
sources: the records that open an object with the given index: the `object`
record and, for a closure, its code reference. -/
def Obj.opening (index : Nat) : Obj → List Record
  | Obj.table _ _ => [Record.object index ObjKind.table]
  | Obj.closure c _ => [Record.object index ObjKind.closure, Record.codeRef c]
  | Obj.userdata _ => []

/-- Modelled from the spec: part of the Encoder of section 4.4, absent from the
sources: whether the object has a serialization rule. -/
def Obj.supported : Obj → Bool
  | Obj.userdata _ => false
  | _ => true

/-- Modelled from the spec: the write side of the Identity Table of section
4.3, absent from the sources: the index of an object already seen, by identity. -/
def indexOf (a : Addr) : List Addr → Option Nat
  | [] => none
  | b :: rest => if b = a then some 0 else (indexOf a rest).map (fun i => i + 1)

/-- Modelled from the spec: part of the Encoder of section 4.4, absent from the
sources: emits a sequence of values one after the other, threading the
Identity Table (the list of objects seen, in first-visit order). -/
def encAll (enc : Value → List Addr → Result (List Record × List Addr)) :
    List Value → List Addr → Result (List Record × List Addr)
  | [], seen => Result.ok ([], seen)
  | v :: vs, seen =>
    match enc v seen with
    | Result.error e => Result.error e
    | Result.ok (r1, s1) =>
      match encAll enc vs s1 with
      | Result.error e => Result.error e
      | Result.ok (r2, s2) => Result.ok (r1 ++ r2, s2)

/-- Modelled from the spec: part of the Encoder of section 4.4, absent from the
sources: the record of a heap object that is not emitted by content: a
`permanentRef` when the registry knows the object, else a `backRef` when the
Identity Table has seen it. -/
def encKnown (interp : Interp) (a : Addr) (seen : List Addr) : Option Record :=
  match lookupByObject interp.registry a with
  | some id => some (Record.permanentRef id)
  | none => (indexOf a seen).map Record.backRef

/-- Modelled from the spec: the Encoder of section 4.4, absent from the
sources.  A scalar is emitted inline; a heap object is emitted as a
`permanentRef` when the registry knows it, as a `backRef` when it was seen
before, and otherwise as an `object` record with the next index, followed by
its children and a `terminator`.  The first argument bounds the nesting. -/
def encVal (interp : Interp) : Nat → Value → List Addr → Result (List Record × List Addr)
  | 0, Value.ref a, seen =>
    match encKnown interp a seen with
    | some r => Result.ok ([r], seen)
    | none => Result.error Error.OutOfFuel
  | n + 1, Value.ref a, seen =>
    match encKnown interp a seen with
    | some r => Result.ok ([r], seen)
    | none =>
      match interp.heap[a]? with
      | none => Result.error Error.AdapterError
      | some obj =>
        if obj.supported = false then Result.error Error.UnsupportedValue
        else
          match encAll (fun v s => encVal interp n v s) obj.children (seen ++ [a]) with
          | Result.error e => Result.error e
          | Result.ok (rs, s2) =>
            Result.ok (obj.opening seen.length ++ rs ++ [Record.terminator], s2)
  | _, Value.nil, seen => Result.ok ([Record.nil], seen)
  | _, Value.boolean b, seen => Result.ok ([Record.boolean b], seen)
  | _, Value.integer i, seen => Result.ok ([Record.integer i], seen)
  | _, Value.float x, seen => Result.ok ([Record.float x], seen)
  | _, Value.string s, seen => Result.ok ([Record.string s], seen)

/-- Modelled from the spec: `persistLua`, whose body is absent from the
sources: the encoder run from the roots with an empty Identity Table; the
result is the record stream.  The nesting of new objects cannot exceed the
number of objects, which bounds the walk. -/
def persistLua (interp : Interp) (roots : List Value) : Result (List Record) :=
  match encAll (fun v s => encVal interp (interp.heap.length + 1) v s) roots [] with
  | Result.error e => Result.error e
  | Result.ok (rs, _) => Result.ok rs

/-! ## Decoder -/

/-- Modelled from the spec: part of the Decoder of section 4.5, absent from the
sources: a slot of an object under construction: a value, or a Pending
Patch, the index of an object that was not yet resolved when the reference
was read (the slot it will overwrite is the one that holds it). -/
inductive Slot
  | val (v : Value)
  | pending (index : Nat)
  deriving DecidableEq, Repr

/-- Modelled from the spec: part of the Decoder of section 4.5, absent from the
sources: an object under construction in the decoder: its kind, its code
reference (0 for a table) and its children in stream order. -/
structure PObj where
  kind : ObjKind
  code : Nat
  children : List Slot
  deriving DecidableEq, Repr

/-- Modelled from the spec: part of the Identity Table of section 4.3, absent
from the sources: the placeholder reserved for an index: an empty shell of
the right kind. -/
def placeholder (kind : ObjKind) : PObj := { kind := kind, code := 0, children := [] }

/-- Modelled from the spec: part of the Decoder of section 4.5, absent from the
sources: an object whose children are being read: the position of its
placeholder, its index, its kind, the code reference read (for a closure)
and the children read so far. -/
structure Frame where
  pos : Nat
  index : Nat
  kind : ObjKind
  code : Option Nat
  children : List Slot
  deriving DecidableEq, Repr

/-- Modelled from the spec: the state of the Decoder of section 4.5, absent
from the sources: the objects constructed so far (placeholders included), the
read side of the Identity Table (index to position, and the indices resolved),
the objects whose children are being read, innermost first, and the root
values read so far. -/
structure DState where
  arena : List PObj
  idTable : List (Nat × Nat)
  resolved : List Nat
  stack : List Frame
  roots : List Slot
  deriving DecidableEq, Repr

/-- Modelled from the spec: part of the Decoder of section 4.5, absent from the
sources: the decoder's state before the first record. -/
def DState.init : DState :=
  { arena := [], idTable := [], resolved := [], stack := [], roots := [] }

/-- Modelled from the spec: part of the Identity Table of section 4.3, absent
from the sources: the position reserved for an index, if any. -/
def lookupIndex (t : List (Nat × Nat)) (j : Nat) : Option Nat :=
  match t with
  | [] => none
  | (i, p) :: rest => if i = j then some p else lookupIndex rest j

/-- Modelled from the spec: part of the Decoder of section 4.5, absent from the
sources: hands a value that was read to whoever is waiting for it: the
innermost open object of the stack, or the list of roots. -/
def push (ctx : List Frame × List Slot) (s : Slot) : List Frame × List Slot :=
  match ctx.1 with
  | [] => ([], ctx.2 ++ [s])
  | f :: fs => ({ f with children := f.children ++ [s] } :: fs, ctx.2)

/-- Modelled from the spec: part of the Decoder of section 4.5, absent from the
sources: the decoder state after a value was read. -/
def DState.deliver (d : DState) (s : Slot) : DState :=
  { d with stack := (push (d.stack, d.roots) s).1, roots := (push (d.stack, d.roots) s).2 }

/-- Modelled from the spec: part of the Decoder of section 4.5, absent from the
sources: the object a completed frame stands for; `none` when the children
read do not make up an object of its kind: a table needs its metatable and
then whole key/value pairs, a closure its code reference. -/
def Frame.build (f : Frame) : Option PObj :=
  match f.kind with
  | ObjKind.table =>
    if f.children.length % 2 = 1 then
      some { kind := ObjKind.table, code := 0, children := f.children }
    else none
  | ObjKind.closure =>
    match f.code with
    | none => none
    | some c => some { kind := ObjKind.closure, code := c, children := f.children }

/-- Modelled from the spec: one step of the Decoder of section 4.5, absent from
the sources, on one record.  `base` is the address the first constructed object
will have in the target interpreter and `reg` the target's registry.  An
`object` record reserves its placeholder before any child is read; a `backRef`
to an index that is not yet resolved leaves a Pending Patch; a `permanentRef`
is looked up in the target's registry.  A record the format does not allow
where it is read (a `terminator` or `codeRef` outside an object, a key without
a value) is a failed read, `IOError`. -/
def step (base : Nat) (reg : List (String × Addr)) (d : DState) : Record → Result DState
  | Record.nil => Result.ok (d.deliver (Slot.val Value.nil))
  | Record.boolean b => Result.ok (d.deliver (Slot.val (Value.boolean b)))
  | Record.integer i => Result.ok (d.deliver (Slot.val (Value.integer i)))
  | Record.float x => Result.ok (d.deliver (Slot.val (Value.float x)))
  | Record.string s => Result.ok (d.deliver (Slot.val (Value.string s)))
  | Record.permanentRef id =>
    match lookupByIdentifier reg id with
    | none => Result.error Error.UnknownPermanent
    | some a => Result.ok (d.deliver (Slot.val (Value.ref a)))
  | Record.backRef j =>
    match lookupIndex d.idTable j with
    | some p =>
      if j ∈ d.resolved then Result.ok (d.deliver (Slot.val (Value.ref (base + p))))
      else Result.ok (d.deliver (Slot.pending j))
    | none => Result.ok (d.deliver (Slot.pending j))
  | Record.object i kind =>
    Result.ok
      { d with
        arena := d.arena ++ [placeholder kind]
        idTable := (i, d.arena.length) :: d.idTable
        stack := { pos := d.arena.length, index := i, kind := kind, code := none,
                   children := [] } :: d.stack }
  | Record.codeRef c =>
    match d.stack with
    | [] => Result.error Error.IOError
    | f :: fs =>
      if f.kind = ObjKind.closure ∧ f.code = none ∧ f.children = [] then
        Result.ok { d with stack := { f with code := some c } :: fs }
      else Result.error Error.IOError
  | Record.terminator =>
    match d.stack with
    | [] => Result.error Error.IOError
    | f :: fs =>
      match f.build with
      | none => Result.error Error.IOError
      | some obj =>
        Result.ok
          (DState.deliver
            { d with
              arena := d.arena.set f.pos obj
              resolved := f.index :: d.resolved
              stack := fs }
            (Slot.val (Value.ref (base + f.pos))))

/-- Modelled from the spec: part of the Decoder of section 4.5, absent from the
sources: runs the decoder over the records, first to last; the first failure
aborts the run. -/
def steps (base : Nat) (reg : List (String × Addr)) : DState → List Record → Result DState
  | d, [] => Result.ok d
  | d, r :: rs =>
    match step base reg d r with
    | Result.error e => Result.error e
    | Result.ok d1 => steps base reg d1 rs

/-- Modelled from the spec: part of the Identity Table of section 4.3, absent
from the sources: resolves a slot once the stream is consumed: a Pending
Patch is overwritten with the object its index was resolved to, and fails
with `DanglingReference` when that index was never produced. -/
def resolveSlot (base : Nat) (d : DState) : Slot → Result Value
  | Slot.val v => Result.ok v
  | Slot.pending j =>
    match lookupIndex d.idTable j with
    | some p => if j ∈ d.resolved then Result.ok (Value.ref (base + p))
                else Result.error Error.DanglingReference
    | none => Result.error Error.DanglingReference

/-- Modelled from the spec: part of the Decoder of section 4.5, absent from the
sources: resolves a sequence of slots. -/
def resolveAll (base : Nat) (d : DState) : List Slot → Result (List Value)
  | [] => Result.ok []
  | s :: ss =>
    match resolveSlot base d s with
    | Result.error e => Result.error e
    | Result.ok v =>
      match resolveAll base d ss with
      | Result.error e => Result.error e
      | Result.ok vs => Result.ok (v :: vs)

/-- Modelled from the spec: part of the Decoder of section 4.5, absent from the
sources: groups resolved children into key/value pairs. -/
def unflatten : List Value → List (Value × Value)
  | k :: v :: rest => (k, v) :: unflatten rest
  | _ => []

/-- Modelled from the spec: part of the Decoder of section 4.5, absent from the
sources: the object made of resolved children (`makeTable` and
`setTableEntry`, or `makeClosure`, of section 4.1). -/
def rebuild : ObjKind → Nat → List Value → Obj
  | ObjKind.table, _, [] => Obj.table Value.nil []
  | ObjKind.table, _, m :: rest => Obj.table m (unflatten rest)
  | ObjKind.closure, c, vs => Obj.closure c vs

/-- Modelled from the spec: part of the Decoder of section 4.5, absent from the
sources: resolves every slot of an object under construction. -/
def resolveObj (base : Nat) (d : DState) (p : PObj) : Result Obj :=
  match resolveAll base d p.children with
  | Result.error e => Result.error e
  | Result.ok vs => Result.ok (rebuild p.kind p.code vs)

/-- Modelled from the spec: part of the Decoder of section 4.5, absent from the
sources: resolves every object of the arena. -/
def resolveArena (base : Nat) (d : DState) : List PObj → Result (List Obj)
  | [] => Result.ok []
  | o :: os =>
    match resolveObj base d o with
    | Result.error e => Result.error e
    | Result.ok v =>
      match resolveArena base d os with
      | Result.error e => Result.error e
      | Result.ok vs => Result.ok (v :: vs)

/-- Modelled from the spec: the Decoder of section 4.5 on a whole stream,
absent from the sources: the records are read in order, a stream that ends
inside an object is a short read (`IOError`), and the Pending Patches are
resolved once the stream is consumed.  The result is the root values and the
objects constructed, in the order of their placeholders. -/
def decode (target : Interp) (stream : List Record) : Result (List Value × List Obj) :=
  match steps target.heap.length target.registry DState.init stream with
  | Result.error e => Result.error e
  | Result.ok d =>
    match d.stack with
    | _ :: _ => Result.error Error.IOError
    | [] =>
      match resolveArena target.heap.length d d.arena with
      | Result.error e => Result.error e
      | Result.ok objs =>
        match resolveAll target.heap.length d d.roots with
        | Result.error e => Result.error e
        | Result.ok roots => Result.ok (roots, objs)

/-- Modelled from the spec: `unpersistLua`, whose body is absent from the
sources: the decoder owns what it constructs until the stream is decoded, and
only then hands the objects over to the target interpreter; the result is the
outcome (the root values on success) and the target interpreter after the
call. -/
def unpersistLua (target : Interp) (stream : List Record) : Result (List Value) × Interp :=
  match decode target stream with
  | Result.error e => (Result.error e, target)
  | Result.ok (roots, objs) => (Result.ok roots, { target with heap := target.heap ++ objs })

/-! ## Vocabulary of the statements -/

/-- The value a source value is decoded to, given the objects the encoder has
seen: a scalar is itself, a permanent object is whatever the target registry
holds under its identifier, and the `i`-th object seen is the `i`-th object
constructed, at address `base + i`. -/
def image (source : Interp) (reg : List (String × Addr)) (base : Nat) (seen : List Addr) :
    Value → Option Value
  | Value.ref a =>
    match lookupByObject source.registry a with
    | some id => (lookupByIdentifier reg id).map Value.ref
    | none => (indexOf a seen).map (fun i => Value.ref (base + i))
  | v => some v

/-- The translation of values induced by `image` (the identity where `image`
is undefined). -/
def translate (source : Interp) (reg : List (String × Addr)) (base : Nat) (seen : List Addr)
    (v : Value) : Value :=
  (image source reg base seen v).getD v

/-- Applies a translation of values to every child of an object. -/
def mapObj (f : Value → Value) : Obj → Obj
  | Obj.table m es => Obj.table (f m) (es.map (fun e => (f e.1, f e.2)))
  | Obj.closure c ups => Obj.closure c (ups.map f)
  | Obj.userdata t => Obj.userdata t

/-- The object `b` is a child of the object `a` in the value graph that is
persisted: a metatable, key, value or upvalue of it.  A permanent object is a
leaf of that graph: it is referenced by identifier and never descended into. -/
def Child (interp : Interp) (a b : Addr) : Prop :=
  lookupByObject interp.registry a = none ∧
    ∃ obj, interp.heap[a]? = some obj ∧ Value.ref b ∈ obj.children

/-- The object `a` contains `b`, directly or transitively, in the value graph
that is persisted. -/
def Contains (interp : Interp) : Addr → Addr → Prop := Relation.TransGen (Child interp)

/-- The unfolding of a value graph from a value: what structural equality
compares.  A permanent object unfolds to its identifier. -/
inductive Tree
  | scalar (v : Value)
  | permanent (id : String)
  | userdata (tag : Nat)
  | table (metatable : Tree) (entries : List (Tree × Tree))
  | closure (code : Nat) (upvalues : List Tree)

/-- Unfolds a sequence of values. -/
def unfoldAll (f : Value → Option Tree) : List Value → Option (List Tree)
  | [] => some []
  | v :: vs =>
    match f v, unfoldAll f vs with
    | some t, some ts => some (t :: ts)
    | _, _ => none

/-- Unfolds the key/value pairs of a table. -/
def unfoldPairs (f : Value → Option Tree) : List (Value × Value) → Option (List (Tree × Tree))
  | [] => some []
  | (k, v) :: es =>
    match f k, f v, unfoldPairs f es with
    | some tk, some tv, some ts => some ((tk, tv) :: ts)
    | _, _, _ => none

/-- The unfolding of the graph under a value, to the given depth; `none` when
the graph is deeper (a cyclic graph has no unfolding at any depth) or holds a
reference to no object. -/
def unfold (interp : Interp) : Nat → Value → Option Tree
  | 0, Value.ref a =>
    match lookupByObject interp.registry a with
    | some id => some (Tree.permanent id)
    | none => none
  | n + 1, Value.ref a =>
    match lookupByObject interp.registry a with
    | some id => some (Tree.permanent id)
    | none =>
      match interp.heap[a]? with
      | none => none
      | some (Obj.userdata t) => some (Tree.userdata t)
      | some (Obj.table m es) =>
        match unfold interp n m, unfoldPairs (fun v => unfold interp n v) es with
        | some tm, some ts => some (Tree.table tm ts)
        | _, _ => none
      | some (Obj.closure c ups) =>
        match unfoldAll (fun v => unfold interp n v) ups with
        | some ts => some (Tree.closure c ts)
        | none => none
  | _, v => some (Tree.scalar v)

/-- The registry of the target names only objects of its heap, and is a
bidirectional mapping: the object registered under an identifier is looked up
back to that identifier. -/
def RegistryOk (target : Interp) : Prop :=
  (∀ id t, (id, t) ∈ target.registry → t < target.heap.length) ∧
    ∀ id t, lookupByIdentifier target.registry id = some t →
      lookupByObject target.registry t = some id

/-- The constructed object `o` is the source object at `a`, with every child
translated. -/
def Decoded (source : Interp) (reg : List (String × Addr)) (base : Nat) (seen : List Addr)
    (o : Obj) (a : Addr) : Prop :=
  lookupByObject source.registry a = none ∧
    ∃ obj, source.heap[a]? = some obj ∧ obj.supported = true ∧
      o = mapObj (translate source reg base seen) obj ∧
      ∀ c ∈ obj.children, ∃ w, image source reg base seen c = some w

/-- Every identifier of the source registry is registered in the target (the
caller contract of section 4.2). -/
def SameIdentifiers (source target : Interp) : Prop :=
  ∀ a id, lookupByObject source.registry a = some id →
    ∃ t, lookupByIdentifier target.registry id = some t

/-- The record of a scalar value. -/
def scalarRecord : Value → Record
  | Value.boolean b => Record.boolean b
  | Value.integer i => Record.integer i
  | Value.float x => Record.float x
  | Value.string s => Record.string s
  | _ => Record.nil

/-- The kind of an object (a userdata counts as a table; it is never emitted). -/
def Obj.kind : Obj → ObjKind
  | Obj.closure _ _ => ObjKind.closure
  | _ => ObjKind.table

/-- The code reference of a closure, 0 for any other object. -/
def Obj.code : Obj → Nat
  | Obj.closure c _ => c
  | _ => 0

/-- The value a slot holds once resolved, when every index stands at its own
position. -/
def Slot.target (base : Nat) : Slot → Value
  | Slot.val v => v
  | Slot.pending j => Value.ref (base + j)

/-- The slot `s` stands for the source value `v`. -/
def SlotFor (source : Interp) (reg : List (String × Addr)) (base : Nat) (seen : List Addr)
    (s : Slot) (v : Value) : Prop :=
  image source reg base seen v = some (s.target base) ∧ ∀ j, s = Slot.pending j → j < seen.length

/-- The object under construction `p` stands for the source object at `a`. -/
def ObjFor (source : Interp) (reg : List (String × Addr)) (base : Nat) (seen : List Addr)
    (p : PObj) (a : Addr) : Prop :=
  lookupByObject source.registry a = none ∧
    ∃ obj, source.heap[a]? = some obj ∧ obj.supported = true ∧ p.kind = obj.kind ∧
      p.code = obj.code ∧ List.Forall₂ (SlotFor source reg base seen) p.children obj.children

/-- Every permanent reference of the records is registered in `reg`. -/
def Resolvable (reg : List (String × Addr)) (recs : List Record) : Prop :=
  ∀ id, Record.permanentRef id ∈ recs → ∃ t, lookupByIdentifier reg id = some t

/-- Every index below `n` stands at its own position. -/
def IdOk (t : List (Nat × Nat)) (n : Nat) : Prop := ∀ j, j < n → lookupIndex t j = some j

/-- Every index below `n` is resolved or belongs to an open object. -/
def ResOk (resolved : List Nat) (stack : List Frame) (n : Nat) : Prop :=
  ∀ j, j < n → j ∈ resolved ∨ j ∈ stack.map Frame.index

/-- The frame the decoder opens for the source object `obj`, once the opening
records are read. -/
def openFrame (obj : Obj) (pos index : Nat) : Frame :=
  { pos := pos, index := index, kind := obj.kind,
    code := (match obj with
             | Obj.closure c _ => some c
             | _ => none),
    children := [] }

/-- What the decoder does with the records of one encoded value. -/
def SimOne (source : Interp) (reg : List (String × Addr)) (base : Nat)
    (enc : Value → List Addr → Result (List Record × List Addr)) : Prop :=
  ∀ v seen recs seen1, enc v seen = Result.ok (recs, seen1) →
    ∀ arena idt res stack roots, arena.length = seen.length → IdOk idt seen.length →
      ResOk res stack seen.length →
      (¬ Resolvable reg recs →
        steps base reg ⟨arena, idt, res, stack, roots⟩ recs =
          Result.error Error.UnknownPermanent) ∧
      (Resolvable reg recs →
        ∃ ext objs idt1 res1 s, seen1 = seen ++ ext ∧
          steps base reg ⟨arena, idt, res, stack, roots⟩ recs =
            Result.ok ⟨arena ++ objs, idt1, res1, (push (stack, roots) s).1,
              (push (stack, roots) s).2⟩ ∧
          List.Forall₂ (ObjFor source reg base seen1) objs ext ∧
          IdOk idt1 seen1.length ∧ ResOk res1 stack seen1.length ∧
          SlotFor source reg base seen1 s v)

/-- What the decoder does with the records of a sequence of encoded values. -/
def SimMany (source : Interp) (reg : List (String × Addr)) (base : Nat)
    (enc : Value → List Addr → Result (List Record × List Addr)) : Prop :=
  ∀ vs seen recs seen1, encAll enc vs seen = Result.ok (recs, seen1) →
    ∀ arena idt res stack roots, arena.length = seen.length → IdOk idt seen.length →
      ResOk res stack seen.length →
      (¬ Resolvable reg recs →
        steps base reg ⟨arena, idt, res, stack, roots⟩ recs =
          Result.error Error.UnknownPermanent) ∧
      (Resolvable reg recs →
        ∃ ext objs idt1 res1 ss, seen1 = seen ++ ext ∧
          steps base reg ⟨arena, idt, res, stack, roots⟩ recs =
            Result.ok ⟨arena ++ objs, idt1, res1, (ss.foldl push (stack, roots)).1,
              (ss.foldl push (stack, roots)).2⟩ ∧
          List.Forall₂ (ObjFor source reg base seen1) objs ext ∧
          IdOk idt1 seen1.length ∧ ResOk res1 stack seen1.length ∧
          List.Forall₂ (SlotFor source reg base seen1) ss vs)

/-- The interpreter of the concrete scenario: the root table
`{a = 1, b = <root>}` at address 0. -/
def selfTable : Interp :=
  { heap := [Obj.table Value.nil
      [(Value.string [97], Value.integer 1), (Value.string [98], Value.ref 0)]]
    registry := [] }

/-- A fresh interpreter: no object, nothing registered. -/
def freshInterp : Interp := { heap := [], registry := [] }

/-- The value stored under a key in the table a value refers to. -/
def tableField (interp : Interp) (v key : Value) : Option Value :=
  match v with
  | Value.ref a =>
    match interp.heap[a]? with
    | some (Obj.table _ es) => (es.find? (fun e => e.1 == key)).map (fun e => e.2)
    | _ => none
  | _ => none

/-- The stream of the concrete scenario. -/
def selfStream : List Record :=
  [Record.object 0 ObjKind.table, Record.nil, Record.string [97], Record.integer 1,
   Record.string [98], Record.backRef 0, Record.terminator]

/-- A source interpreter with an acyclic graph: a table at address 0 that
holds the closure at address 1 under two keys; the closure captures the number
5 and the host function at address 2, registered as `"print"`. -/
def sampleSource : Interp :=
  { heap := [Obj.table Value.nil
               [(Value.string [107], Value.ref 1), (Value.string [106], Value.ref 1)],
             Obj.closure 7 [Value.integer 5, Value.ref 2],
             Obj.userdata 9]
    registry := [("print", 2)] }

/-- A target interpreter that registers `"print"` for its own host function. -/
def sampleTarget : Interp :=
  { heap := [Obj.userdata 1, Obj.userdata 2]
    registry := [("other", 0), ("print", 1)] }

/-- The stream `persistLua` writes for `sampleSource` from the table. -/
def sampleStream : List Record :=
  [Record.object 0 ObjKind.table, Record.nil, Record.string [107],
   Record.object 1 ObjKind.closure, Record.codeRef 7, Record.integer 5,
   Record.permanentRef "print", Record.terminator,
   Record.string [106], Record.backRef 1, Record.terminator]

end Lua
namespace Lab

/-! ## Pause state machine -/

theorem pauseCalls_append (a b : List Call) : pauseCalls (a ++ b) = pauseCalls a ++ pauseCalls b := by
  induction a with
  | nil => rfl
  | cons c cs ih =>
    cases c with
    | pauseHandle h p => cases h <;> simp [pauseCalls, ih]
    | _ => simp [pauseCalls, ih]

theorem stopSoundEffect_calls (env : Env) (w : State) :
    ∃ new, (stopSoundEffect env w).calls = w.calls ++ new ∧ pauseCalls new = [] ∧
      (∀ t h s, Call.playStream t h s ∉ new) := by
  unfold stopSoundEffect isSoundEffectActive
  by_cases h : env.active w.queries
  · exact ⟨[Call.stopHandle Handle.sfx], by simp [h, State.call], rfl, by simp⟩
  · exact ⟨[], by simp [h], rfl, by simp⟩

theorem stopSoundEffect_musicPaused (env : Env) (w : State) :
    (stopSoundEffect env w).musicPaused = w.musicPaused := by
  unfold stopSoundEffect isSoundEffectActive
  by_cases h : env.active w.queries <;> simp [h, State.call]

theorem pauseOp_step (env : Env) (op : PauseOp) (w : State) :
    ∃ new, (op.run env w).calls = w.calls ++ new ∧
      ((pauseCalls new = [] ∧ (op.run env w).musicPaused = w.musicPaused) ∨
       (pauseCalls new = [!w.musicPaused] ∧ (op.run env w).musicPaused = !w.musicPaused)) := by
  obtain ⟨n, hn, hp, -⟩ := stopSoundEffect_calls env w
  cases op with
  | pause =>
    by_cases h : w.musicPaused = false
    · refine ⟨n ++ [Call.pauseHandle Handle.music true], ?_, Or.inr ?_⟩
      · simp [PauseOp.run, pauseBackMusic, h, State.call, hn]
      · simp [PauseOp.run, pauseBackMusic, h, pauseCalls_append, hp, pauseCalls]
    · exact ⟨[], by simp [PauseOp.run, pauseBackMusic, h], Or.inl ⟨rfl, by simp [PauseOp.run, pauseBackMusic, h]⟩⟩
  | resume =>
    by_cases h : w.musicPaused = true
    · refine ⟨n ++ [Call.pauseHandle Handle.music false], ?_, Or.inr ?_⟩
      · simp [PauseOp.run, resumeBackMusic, h, State.call, hn]
      · simp [PauseOp.run, resumeBackMusic, h, pauseCalls_append, hp, pauseCalls]
    · exact ⟨[], by simp [PauseOp.run, resumeBackMusic, h], Or.inl ⟨rfl, by simp [PauseOp.run, resumeBackMusic, h]⟩⟩

theorem runPauseOps_calls (env : Env) (ops : List PauseOp) :
    ∀ w : State, ∃ new, (runPauseOps env ops w).calls = w.calls ++ new ∧
      alternates (!w.musicPaused) (pauseCalls new) = true ∧
      (runPauseOps env ops w).musicPaused = ((pauseCalls new).getLast?).getD w.musicPaused := by
  induction ops with
  | nil => intro w; exact ⟨[], by simp [runPauseOps], rfl, rfl⟩
  | cons op ops ih =>
    intro w
    obtain ⟨n1, h1, hc⟩ := pauseOp_step env op w
    obtain ⟨n2, h2, ha, hl⟩ := ih (op.run env w)
    refine ⟨n1 ++ n2, ?_, ?_, ?_⟩
    · show (runPauseOps env ops (op.run env w)).calls = _
      rw [h2, h1, List.append_assoc]
    · rcases hc with ⟨hp, hm⟩ | ⟨hp, hm⟩
      · rw [pauseCalls_append, hp, List.nil_append, ← hm]; exact ha
      · rw [pauseCalls_append, hp]
        rw [hm, Bool.not_not] at ha
        simp [alternates, ha]
    · show (runPauseOps env ops (op.run env w)).musicPaused = _
      rw [hl]
      rcases hc with ⟨hp, hm⟩ | ⟨hp, hm⟩
      · rw [pauseCalls_append, hp, List.nil_append, hm]
      · rw [pauseCalls_append, hp, hm]
        cases h : pauseCalls n2 with
        | nil => simp
        | cons x xs =>
          rw [List.getLast?_eq_getLast (x :: xs) (by simp),
            List.getLast?_eq_getLast ([!w.musicPaused] ++ x :: xs) (by simp)]
          simp [List.getLast_append]


theorem changeMusic_musicPaused (env : Env) (n : String) (s k : Bool) (w w1 : State)
    (h : changeMusic env n s k w = some w1) : w1.musicPaused = false := by
  unfold changeMusic at h
  split at h
  · exact absurd h (by simp)
  · simp only at h
    split at h
    · exact absurd h (by simp)
    · injection h with h
      subst h
      cases k <;> simp [State.call, freeMusic]

/-- C8: `pauseBackMusic` on a paused state and `resumeBackMusic` on an unpaused
state are the identity (no field changes, no call is issued); and over every
sequence of the two calls from a fresh `Music` (or right after `freeMusic` or
`changeMusic`) the `pauseHandle(music, _)` calls received by the mixer
alternate, starting with `true`, and `_musicPaused` is true exactly when the
last of them was `pauseHandle(music, true)`. -/
theorem pause_resume_alternate (env : Env) (w0 : State) (ops : List PauseOp)
    (h0 : FreshlyUnpaused env w0) :
    (∀ w : State, w.musicPaused = true → pauseBackMusic env w = w) ∧
    (∀ w : State, w.musicPaused = false → resumeBackMusic env w = w) ∧
    ∃ new, (runPauseOps env ops w0).calls = w0.calls ++ new ∧
      alternates true (pauseCalls new) = true ∧
      ((runPauseOps env ops w0).musicPaused = true ↔
        (pauseCalls new).getLast? = some true) := by
  have hp : w0.musicPaused = false := by
    rcases h0 with ⟨r, d, rfl⟩ | ⟨w, rfl⟩ | ⟨n, s, k, w, h⟩
    · rfl
    · rfl
    · exact changeMusic_musicPaused env n s k w w0 h
  refine ⟨fun w h => by simp [pauseBackMusic, h], fun w h => by simp [resumeBackMusic, h], ?_⟩
  obtain ⟨new, hc, ha, hl⟩ := runPauseOps_calls env ops w0
  refine ⟨new, hc, by simpa [hp] using ha, ?_⟩
  rw [hl, hp]
  cases (pauseCalls new).getLast? <;> simp

theorem pause_resume_alternate_witness :
    ∃ new, (runPauseOps quietEnv [PauseOp.pause, PauseOp.pause, PauseOp.resume, PauseOp.resume,
        PauseOp.pause] (Music.new 1 false)).calls = (Music.new 1 false).calls ++ new ∧
      alternates true (pauseCalls new) = true ∧
      ((runPauseOps quietEnv [PauseOp.pause, PauseOp.pause, PauseOp.resume, PauseOp.resume,
        PauseOp.pause] (Music.new 1 false)).musicPaused = true ↔
        (pauseCalls new).getLast? = some true) :=
  (pause_resume_alternate quietEnv (Music.new 1 false)
    [PauseOp.pause, PauseOp.pause, PauseOp.resume, PauseOp.resume, PauseOp.pause]
    (Or.inl ⟨1, false, rfl⟩)).2.2

/-! ## Streams handed to the mixer -/

theorem pauseBackMusic_calls (env : Env) (w : State) :
    ∃ new, (pauseBackMusic env w).calls = w.calls ++ new ∧ (∀ t h s, Call.playStream t h s ∉ new) := by
  obtain ⟨n, hn, -, hq⟩ := stopSoundEffect_calls env w
  by_cases h : w.musicPaused = false
  · refine ⟨n ++ [Call.pauseHandle Handle.music true], by simp [pauseBackMusic, h, State.call, hn], ?_⟩
    intro t hd s hm
    rcases List.mem_append.1 hm with hm | hm
    · exact hq t hd s hm
    · simp at hm
  · exact ⟨[], by simp [pauseBackMusic, h], by simp⟩

theorem playSoundEffect_file (env : Env) (sampleSpeed length : Nat) (loop : Bool)
    (dataFile : File) (w : State) :
    (playSoundEffect env sampleSpeed length loop dataFile w).1 =
      dataFile.skip (dataFile.rest.take length).length := rfl

theorem playSoundEffect_calls (env : Env) (sampleSpeed length : Nat) (loop : Bool)
    (dataFile : File) (w : State) :
    ∃ mid, (playSoundEffect env sampleSpeed length loop dataFile w).2.calls =
        w.calls ++ mid ++ [Call.playStream SoundType.kSFXSoundType Handle.sfx
          { source := Source.buffer length (dataFile.rest.take length),
            rate := max sampleSpeed 4000, flags := getSoundFlags env,
            loops := if loop = true then 0 else 1 }] ∧
      (∀ t h s, Call.playStream t h s ∉ mid) := by
  obtain ⟨m1, h1, hq1⟩ := pauseBackMusic_calls env w
  obtain ⟨m2, h2, -, hq2⟩ := stopSoundEffect_calls env (pauseBackMusic env w)
  refine ⟨m1 ++ m2, ?_, ?_⟩
  · have hr : (if sampleSpeed < 4000 then 4000 else sampleSpeed) = max sampleSpeed 4000 := by
      split <;> omega
    simp only [playSoundEffect, State.call, h2, h1, hr, File.read]
    cases loop <;> simp
  · intro t hd st hmem
    rcases List.mem_append.1 hmem with hmem | hmem
    · exact hq1 t hd st hmem
    · exact hq2 t hd st hmem

theorem changeMusic_roomNum (env : Env) (n : String) (s k : Bool) (w w1 : State)
    (h : changeMusic env n s k w = some w1) : w1.roomNum = w.roomNum := by
  unfold changeMusic at h
  split at h
  · exact absurd h (by simp)
  · simp only at h
    split at h
    · exact absurd h (by simp)
    · injection h with h
      subst h
      have hs : ∀ v : State, (stopSoundEffect env v).roomNum = v.roomNum := by
        intro v
        unfold stopSoundEffect isSoundEffectActive
        by_cases ha : env.active v.queries <;> simp [ha, State.call]
      cases k <;> cases s <;> simp [State.call, freeMusic, hs]

theorem changeMusic_store_isSome (env : Env) (n : String) (w : State) (h : w.musicFile ≠ none) :
    (changeMusic env n true false w).isSome = true := by
  unfold changeMusic
  simp [h]

theorem changeMusic_seek_isSome (env : Env) (n : String) (w : State)
    (h : env.openDataFile n 0 ≠ none) : (changeMusic env n false true w).isSome = true := by
  unfold changeMusic
  simp [h]

theorem changeMusic_store (env : Env) (n : String) (w : State) (f : File)
    (h : w.musicFile = some f) :
    changeMusic env n true false w =
      some { w with
        musicFile := env.openDataFile n 0
        musicPaused := false
        storedPos := f.pos % 4294967296
        calls := w.calls ++ trackCalls env w (env.openDataFile n 0)
        queries := w.queries + 1 } := by
  unfold changeMusic
  by_cases ha : env.active w.queries = true <;>
    simp [h, stopSoundEffect, isSoundEffectActive, freeMusic, State.call, trackCalls, ha,
      SAMPLESPEED]

theorem changeMusic_seek (env : Env) (n : String) (w : State) (g : File)
    (h : env.openDataFile n 0 = some g) :
    changeMusic env n false true w =
      some { w with
        musicFile := some (g.seek w.storedPos)
        musicPaused := false
        calls := w.calls ++ trackCalls env w (some (g.seek w.storedPos))
        queries := w.queries + 1 } := by
  unfold changeMusic
  by_cases ha : env.active w.queries = true <;>
    simp [h, stopSoundEffect, isSoundEffectActive, freeMusic, State.call, trackCalls, ha,
      SAMPLESPEED]

/-- C5: `checkRoomMusic` changes nothing when `_curRoomMusic` is the current
room or there is no music file.  Otherwise, entering room 123 stores the
position of the playing file in `_storedPos`, opens `"Music:Laugh"` and plays a
stream over it from where it was opened (no seek), and entering room 80 does
the same with `"Music:Rm81"`; any other room entered from 123 or 80 opens the
background track (`"Music:Backgrou"`, `"Music:Background"` on Amiga), seeks it
to `_storedPos`, which is left as it was, and plays a stream over it (when that
file opens); any other room entered from elsewhere plays nothing and changes
only `_curRoomMusic`; and the call ends with `_curRoomMusic` equal to the
room. -/
theorem checkRoomMusic_mapping (env : Env) (w : State) :
    ((w.curRoomMusic = w.roomNum ∨ w.musicFile = none) → checkRoomMusic env w = some w) ∧
    (¬ (w.curRoomMusic = w.roomNum ∨ w.musicFile = none) →
      (w.roomNum = 123 → ∃ f, w.musicFile = some f ∧
        checkRoomMusic env w =
          some { w with
            musicFile := env.openDataFile "Music:Laugh" 0
            musicPaused := false
            curRoomMusic := 123
            storedPos := f.pos % 4294967296
            calls := w.calls ++ trackCalls env w (env.openDataFile "Music:Laugh" 0)
            queries := w.queries + 1 }) ∧
      (w.roomNum = 80 → ∃ f, w.musicFile = some f ∧
        checkRoomMusic env w =
          some { w with
            musicFile := env.openDataFile "Music:Rm81" 0
            musicPaused := false
            curRoomMusic := 80
            storedPos := f.pos % 4294967296
            calls := w.calls ++ trackCalls env w (env.openDataFile "Music:Rm81" 0)
            queries := w.queries + 1 }) ∧
      (w.roomNum ≠ 123 → w.roomNum ≠ 80 → (w.curRoomMusic = 123 ∨ w.curRoomMusic = 80) →
        ∀ g, env.openDataFile (if env.platform = Platform.kPlatformAmiga then "Music:Background"
            else "Music:Backgrou") 0 = some g →
          checkRoomMusic env w =
            some { w with
              musicFile := some (g.seek w.storedPos)
              musicPaused := false
              curRoomMusic := w.roomNum
              storedPos := w.storedPos
              calls := w.calls ++ trackCalls env w (some (g.seek w.storedPos))
              queries := w.queries + 1 }) ∧
      (w.roomNum ≠ 123 → w.roomNum ≠ 80 → ¬ (w.curRoomMusic = 123 ∨ w.curRoomMusic = 80) →
        checkRoomMusic env w = some { w with curRoomMusic := w.roomNum }) ∧
      (∀ w1, checkRoomMusic env w = some w1 → w1.curRoomMusic = w.roomNum)) := by
  refine ⟨fun h => by simp [checkRoomMusic, h], fun h => ⟨?_, ?_, ?_, ?_, ?_⟩⟩
  · intro hr
    cases hf : w.musicFile with
    | none => exact absurd (Or.inr hf) h
    | some f =>
      refine ⟨f, rfl, ?_⟩
      unfold checkRoomMusic
      rw [if_neg h]
      simp only [hr, CLOWNROOM, if_true]
      rw [changeMusic_store env _ w f hf]
      simp [hr]
  · intro hr
    cases hf : w.musicFile with
    | none => exact absurd (Or.inr hf) h
    | some f =>
      refine ⟨f, rfl, ?_⟩
      unfold checkRoomMusic
      rw [if_neg h]
      simp only [hr, CLOWNROOM, DIMROOM, if_true]
      rw [if_neg (by decide), changeMusic_store env _ w f hf]
      simp [hr]
  · intro h1 h2 h3 g hg
    unfold checkRoomMusic
    rw [if_neg h]
    by_cases hp : env.platform = Platform.kPlatformAmiga
    · rw [if_pos hp] at hg
      simp only [h1, h2, h3, hp, CLOWNROOM, DIMROOM, if_false, if_true, ne_eq, not_true_eq_false]
      rw [changeMusic_seek env _ w g hg]
      simp
    · rw [if_neg hp] at hg
      simp only [h1, h2, h3, hp, CLOWNROOM, DIMROOM, if_false, if_true, ne_eq,
        not_false_eq_true]
      rw [changeMusic_seek env _ w g hg]
      simp
  · intro h1 h2 h3
    unfold checkRoomMusic
    rw [if_neg h]
    simp [h1, h2, h3, CLOWNROOM, DIMROOM]
  · intro w1 hw
    unfold checkRoomMusic at hw
    rw [if_neg h] at hw
    simp only [Option.map_eq_some'] at hw
    obtain ⟨w2, hw2, rfl⟩ := hw
    show w2.roomNum = w.roomNum
    split at hw2
    · exact changeMusic_roomNum _ _ _ _ _ _ hw2
    · split at hw2
      · exact changeMusic_roomNum _ _ _ _ _ _ hw2
      · split at hw2
        · split at hw2 <;> exact changeMusic_roomNum _ _ _ _ _ _ hw2
        · injection hw2 with hw2; rw [← hw2]

theorem checkRoomMusic_mapping_witness :
    (∃ f, (enterRoom 123 backgroundPlaying).musicFile = some f ∧
      checkRoomMusic trackEnv (enterRoom 123 backgroundPlaying) =
        some { enterRoom 123 backgroundPlaying with
          musicFile := trackEnv.openDataFile "Music:Laugh" 0
          musicPaused := false
          curRoomMusic := 123
          storedPos := f.pos % 4294967296
          calls := (enterRoom 123 backgroundPlaying).calls ++
            trackCalls trackEnv (enterRoom 123 backgroundPlaying)
              (trackEnv.openDataFile "Music:Laugh" 0)
          queries := (enterRoom 123 backgroundPlaying).queries + 1 }) ∧
    checkRoomMusic trackEnv (enterRoom 5 laughPlaying) =
      some { enterRoom 5 laughPlaying with
        musicFile := some (File.seek { data := [1, 2, 3, 4, 5, 6, 7, 8], pos := 0 } 6)
        musicPaused := false
        curRoomMusic := 5
        storedPos := 6
        calls := trackCalls trackEnv (enterRoom 5 laughPlaying)
          (some (File.seek { data := [1, 2, 3, 4, 5, 6, 7, 8], pos := 0 } 6))
        queries := 1 } :=
  ⟨((checkRoomMusic_mapping trackEnv (enterRoom 123 backgroundPlaying)).2 (by decide)).1 rfl,
   ((checkRoomMusic_mapping trackEnv (enterRoom 5 laughPlaying)).2 (by decide)).2.2.1
      (by decide) (by decide) (by decide) { data := [1, 2, 3, 4, 5, 6, 7, 8], pos := 0 } rfl⟩

/-! ## Loading a sound effect -/

theorem sfxStreams_append (a b : List Call) : sfxStreams (a ++ b) = sfxStreams a ++ sfxStreams b := by
  induction a with
  | nil => rfl
  | cons c cs ih =>
    cases c with
    | playStream t h s => cases h <;> simp [sfxStreams, ih]
    | _ => simp [sfxStreams, ih]

theorem sfxStreams_of_no_play (l : List Call) (h : ∀ t hd s, Call.playStream t hd s ∉ l) :
    sfxStreams l = [] := by
  induction l with
  | nil => rfl
  | cons c cs ih =>
    have ih1 := ih (fun t hd s hm => h t hd s (List.mem_cons_of_mem _ hm))
    cases c with
    | playStream t hd s => exact absurd (List.mem_cons_self _ _) (h t hd s)
    | _ => simpa [sfxStreams] using ih1

theorem readUint32LE_pos (f f1 : File) (v : Nat) (h : f.readUint32LE = some (v, f1)) :
    f1.pos = f.pos + 4 ∧ f1.data = f.data := by
  unfold File.readUint32LE at h
  split at h
  · injection h with h
    injection h with _ h2
    subst h2
    exact ⟨rfl, rfl⟩
  · exact absurd h (by simp)

theorem readSound_gate_aux (env : Env) (fuel : Nat) (waitTillFinished loop : Bool)
    (file : File) (w : State) (m : Nat) (f1 : File) (h : file.readUint32LE = some (m, f1))
    (hm : m ≠ 1219009121) :
    readSound env fuel waitTillFinished loop file w =
      Res.ret f1 (w.call (Call.warning "readSound: Bad signature, skipping")) := by
  simp [readSound, h, hm, SOUNDMAGIC]

/-- C7: when the first word read is not 1219009121, `readSound` returns with the
file four bytes on, having issued only the warning; when it is and the header
tag is not 0, `readSound` returns with the file twelve bytes on, having issued
no call; and, however far a run gets, a stream is played on the sound effect
handle only if the first word is 1219009121 and the header tag is 0. -/
theorem readSound_signature_gate (env : Env) (fuel : Nat) (waitTillFinished loop : Bool)
    (file : File) (w : State) :
    (∀ m f1, file.readUint32LE = some (m, f1) → m ≠ 1219009121 →
      readSound env fuel waitTillFinished loop file w =
        Res.ret f1 (w.call (Call.warning "readSound: Bad signature, skipping")) ∧
      f1.pos = file.pos + 4 ∧ f1.data = file.data) ∧
    (∀ f1 t f2 sz f3, file.readUint32LE = some (1219009121, f1) →
      f1.readUint32LE = some (t, f2) → f2.readUint32LE = some (sz, f3) → t ≠ 0 →
      readSound env fuel waitTillFinished loop file w = Res.ret f3 w ∧
      f3.pos = file.pos + 12 ∧ f3.data = file.data) ∧
    (sfxStreams (readSound env fuel waitTillFinished loop file w).state.calls ≠ sfxStreams w.calls →
      ∃ f1 f2, file.readUint32LE = some (1219009121, f1) ∧ f1.readUint32LE = some (0, f2)) := by
  refine ⟨?_, ?_, ?_⟩
  · intro m f1 h hm
    exact ⟨readSound_gate_aux env fuel waitTillFinished loop file w m f1 h hm,
      readUint32LE_pos file f1 m h⟩
  · intro f1 t f2 sz f3 h1 h2 h3 ht
    obtain ⟨p1, d1⟩ := readUint32LE_pos file f1 _ h1
    obtain ⟨p2, d2⟩ := readUint32LE_pos f1 f2 _ h2
    obtain ⟨p3, d3⟩ := readUint32LE_pos f2 f3 _ h3
    refine ⟨?_, by omega, by rw [d3, d2, d1]⟩
    simp [readSound, h1, h2, h3, ht, SOUNDMAGIC]
  · intro hne
    unfold readSound at hne
    cases h1 : file.readUint32LE with
    | none => rw [h1] at hne; exact absurd rfl hne
    | some r1 =>
      obtain ⟨m, f1⟩ := r1
      rw [h1] at hne
      simp only at hne
      by_cases hm : m = SOUNDMAGIC
      · rw [if_neg (not_not.2 hm)] at hne
        cases h2 : f1.readUint32LE with
        | none => rw [h2] at hne; exact absurd rfl hne
        | some r2 =>
          obtain ⟨t, f2⟩ := r2
          rw [h2] at hne
          simp only at hne
          cases h3 : f2.readUint32LE with
          | none => rw [h3] at hne; exact absurd rfl hne
          | some r3 =>
            obtain ⟨sz, f3⟩ := r3
            rw [h3] at hne
            simp only at hne
            by_cases ht : t = 0
            · subst ht
              rw [hm]
              exact ⟨f1, f2, rfl, h2⟩
            · rw [if_neg ht] at hne
              exact absurd rfl hne
      · rw [if_pos hm] at hne
        exact absurd (by simp [Res.state, State.call, sfxStreams_append, sfxStreams]) hne

theorem readSound_signature_gate_witness :
    (readSound quietEnv 0 true true badSignatureFile (Music.new 1 true) =
        Res.ret { badSignatureFile with pos := 4 }
          ((Music.new 1 true).call (Call.warning "readSound: Bad signature, skipping")) ∧
      ({ badSignatureFile with pos := 4 } : File).pos = badSignatureFile.pos + 4 ∧
      ({ badSignatureFile with pos := 4 } : File).data = badSignatureFile.data) ∧
    (readSound quietEnv 0 true true badHeaderFile (Music.new 1 true) =
        Res.ret { badHeaderFile with pos := 12 } (Music.new 1 true) ∧
      ({ badHeaderFile with pos := 12 } : File).pos = badHeaderFile.pos + 12 ∧
      ({ badHeaderFile with pos := 12 } : File).data = badHeaderFile.data) :=
  ⟨(readSound_signature_gate quietEnv 0 true true badSignatureFile (Music.new 1 true)).1
      7 { badSignatureFile with pos := 4 } (by decide) (by decide),
   (readSound_signature_gate quietEnv 0 true true badHeaderFile (Music.new 1 true)).2.1
      { badHeaderFile with pos := 4 } 5 { badHeaderFile with pos := 8 } 0
      { badHeaderFile with pos := 12 } (by decide) (by decide) (by decide) (by decide)⟩

/-! ## The chunk loop of `readSound` -/

theorem leValue_le32 (v : Nat) (h : v < 4294967296) : leValue (le32 v) = v := by
  simp only [leValue, le32]
  omega

theorem le32_length (v : Nat) : (le32 v).length = 4 := rfl

theorem rest_skip (f : File) (n : Nat) : (f.skip n).rest = f.rest.drop n := by
  simp [File.rest, File.skip, List.drop_drop, Nat.add_comm]

theorem skip_skip (f : File) (a b : Nat) : (f.skip a).skip b = f.skip (a + b) := by
  simp [File.skip, Nat.add_assoc]

theorem readUint32LE_of_rest (f : File) (v : Nat) (r : List Nat) (h : f.rest = le32 v ++ r)
    (hv : v < 4294967296) : f.readUint32LE = some (v, f.skip 4) := by
  unfold File.readUint32LE
  rw [h]
  have : List.take 4 (le32 v ++ r) = le32 v := by simp [le32]
  rw [this, leValue_le32 v hv]
  simp [le32, File.skip]

theorem readUint16LE_of_rest (f : File) (h : 2 ≤ f.rest.length) :
    f.readUint16LE = some (leValue (f.rest.take 2), f.skip 2) := by
  unfold File.readUint16LE
  simp [h, File.skip]


/-- One chunk at the read position: the loop's iteration is `chunkStep`, the
file is left at the next chunk, and the streams played are the chunk's. -/
theorem chunkStep_spec (env : Env) (loop : Bool) (c : Chunk) (hc : c.WellFormed)
    (f : File) (w : State) (r : List Nat) (hf : f.rest = c.bytes ++ r) :
    (chunkStep env loop (f, w) c).1.rest = r ∧
    (chunkStep env loop (f, w) c).1 = f.skip c.bytes.length ∧
    sfxStreams (chunkStep env loop (f, w) c).2.calls =
      sfxStreams w.calls ++ (if c.isSound = true then [chunkStream env loop c] else []) ∧
    (∀ n tag, tag ≠ ENDTAG →
      readSoundLoop env false loop (n + 1) tag f w =
        readSoundLoop env false loop n c.tag (chunkStep env loop (f, w) c).1
          (chunkStep env loop (f, w) c).2) := by
  obtain ⟨ht, hne, hs, hb⟩ := hc
  have hf1 : f.rest = le32 c.tag ++ (le32 c.size ++ c.body ++ r) := by
    simp [hf, Chunk.bytes, List.append_assoc]
  have r1 := readUint32LE_of_rest f c.tag _ hf1 ht
  have hf2 : (f.skip 4).rest = le32 c.size ++ (c.body ++ r) := by
    rw [rest_skip, hf1]; simp [le32]
  have r2 := readUint32LE_of_rest (f.skip 4) c.size _ hf2 hs
  have hf3 : (f.skip 8).rest = c.body ++ r := by
    rw [← skip_skip f 4 4, rest_skip, hf2]; simp [le32]
  by_cases hsnd : c.isSound = true
  · rw [if_pos hsnd] at hb
    have hf5 : (f.skip 16).rest = c.body.drop 8 ++ r := by
      rw [← skip_skip f 8 8, rest_skip, hf3, List.drop_append_of_le_length (by omega)]
    have htake : List.take c.length ((f.skip 16).rest) = c.body.drop 8 := by
      rw [hf5, List.take_append_of_le_length (by simp [hb])]
      exact List.take_of_length_le (by simp [hb])
    have e1 : (chunkStep env loop (f, w) c).1.rest = r := by
      simp only [chunkStep, if_pos hsnd, playSoundEffect_file]
      rw [rest_skip, htake, hf5]
      rw [List.drop_left]
    have e2 : (chunkStep env loop (f, w) c).1 = f.skip c.bytes.length := by
      have hl : c.bytes.length = 16 + (List.drop 8 c.body).length := by
        simp only [Chunk.bytes, List.length_append, le32_length, hb, List.length_drop]
        omega
      simp only [chunkStep, if_pos hsnd, playSoundEffect_file, htake, skip_skip, hl]
    refine ⟨e1, e2, ?_, ?_⟩
    · obtain ⟨mid, hm, hq⟩ := playSoundEffect_calls env c.sampleRate c.length loop (f.skip 16)
        (w.call Call.updateEvents)
      simp only [chunkStep, if_pos hsnd, hm, sfxStreams_append, sfxStreams_of_no_play mid hq, htake]
      simp [State.call, sfxStreams_append, sfxStreams, chunkStream]
    · intro n tag htag
      have h16 : (f.skip 12).readUint16LE = some (c.sampleRate, f.skip 14) := by
        have h12 : (f.skip 12).rest = c.body.drop 4 ++ r := by
          rw [← skip_skip f 8 4, rest_skip, hf3, List.drop_append_of_le_length (by omega)]
        rw [readUint16LE_of_rest _ (by rw [h12]; simp; omega), skip_skip, h12,
          List.take_append_of_le_length (by simp; omega)]
        rfl
      have hsnd2 : c.tag = 30 ∨ c.tag = 31 := by simpa [Chunk.isSound] using hsnd
      rw [readSoundLoop]
      simp only [if_neg htag, r1, r2, skip_skip, if_pos hsnd2, h16, chunkStep, if_pos hsnd]
      rfl
  · rw [if_neg hsnd] at hb
    have e1 : (chunkStep env loop (f, w) c).1.rest = r := by
      simp only [chunkStep, if_neg hsnd, ← skip_skip f 8 c.length, rest_skip (f.skip 8), hf3]
      rw [← hb, List.drop_left]
    have e2 : (chunkStep env loop (f, w) c).1 = f.skip c.bytes.length := by
      have hl : c.bytes.length = 8 + c.length := by
        simp only [Chunk.bytes, List.length_append, le32_length, hb]
      simp only [chunkStep, if_neg hsnd, hl]
    refine ⟨e1, e2, by simp [chunkStep, hsnd, State.call, sfxStreams_append, sfxStreams], ?_⟩
    intro n tag htag
    have hsnd2 : ¬ (c.tag = 30 ∨ c.tag = 31) := by simpa [Chunk.isSound] using hsnd
    have hne2 : ¬ c.tag = ENDTAG := hne
    rw [readSoundLoop]
    simp only [if_neg htag, r1, r2, skip_skip, if_neg hsnd2, if_neg hne2, chunkStep, if_neg hsnd]
    rfl


theorem readSoundLoop_chunks (env : Env) (loop : Bool) (endSize : Nat) (post : List Nat)
    (he : endSize < 4294967296) (chunks : List Chunk) :
    ∀ (fuel tag : Nat) (f : File) (w : State), tag ≠ ENDTAG →
      (∀ c ∈ chunks, c.WellFormed) →
      f.rest = chunkBytes chunks ++ (le32 65535 ++ le32 endSize ++ post) →
      chunks.length < fuel →
      readSoundLoop env false loop fuel tag f w =
        Res.ret ((chunks.foldl (chunkStep env loop) (f, w)).1.skip 8)
          ((chunks.foldl (chunkStep env loop) (f, w)).2.call Call.updateEvents) ∧
      sfxStreams (chunks.foldl (chunkStep env loop) (f, w)).2.calls =
        sfxStreams w.calls ++ (chunks.filter (fun c => c.isSound)).map (chunkStream env loop) ∧
      (chunks.foldl (chunkStep env loop) (f, w)).1 = f.skip (chunkBytes chunks).length := by
  induction chunks with
  | nil =>
    intro fuel tag f w htag _ hf hfuel
    obtain ⟨n, rfl⟩ : ∃ n, fuel = n + 1 := ⟨fuel - 1, by simp at hfuel; omega⟩
    have hf1 : f.rest = le32 65535 ++ (le32 endSize ++ post) := by
      rw [hf, chunkBytes, List.nil_append, List.append_assoc]
    have r1 := readUint32LE_of_rest f 65535 _ hf1 (by decide)
    have hf2 : (f.skip 4).rest = le32 endSize ++ post := by
      rw [rest_skip, hf1]; simp [le32]
    have r2 := readUint32LE_of_rest (f.skip 4) endSize _ hf2 he
    refine ⟨?_, by simp, by simp [chunkBytes, File.skip]⟩
    rw [readSoundLoop]
    simp only [if_neg htag, r1, r2, skip_skip]
    simp only [ENDTAG, Nat.reduceEqDiff, or_self, if_false, if_true, Bool.false_eq_true,
      List.foldl_nil]
    rw [readSoundLoop.eq_def]
    simp [ENDTAG]
  | cons c cs ih =>
    intro fuel tag f w htag hwf hf hfuel
    obtain ⟨n, rfl⟩ : ∃ n, fuel = n + 1 := ⟨fuel - 1, by simp at hfuel; omega⟩
    have hc := hwf c (List.mem_cons_self _ _)
    have hf1 : f.rest = c.bytes ++ (chunkBytes cs ++ (le32 65535 ++ le32 endSize ++ post)) := by
      simpa [chunkBytes, List.append_assoc] using hf
    obtain ⟨e1, e2, e3, e4⟩ := chunkStep_spec env loop c hc f w _ hf1
    obtain ⟨i1, i2, i3⟩ := ih n c.tag (chunkStep env loop (f, w) c).1 (chunkStep env loop (f, w) c).2
      hc.2.1 (fun d hd => hwf d (List.mem_cons_of_mem _ hd)) e1 (by simpa using hfuel)
    refine ⟨?_, ?_, ?_⟩
    · rw [e4 n tag htag, i1]; rfl
    · show sfxStreams (cs.foldl (chunkStep env loop) (chunkStep env loop (f, w) c)).2.calls = _
      rw [i2, e3]
      by_cases hs : c.isSound = true <;> simp [hs, List.filter_cons]
    · show (cs.foldl (chunkStep env loop) (chunkStep env loop (f, w) c)).1 = _
      rw [i3, e2, skip_skip]
      simp [chunkBytes]

theorem readSound_chunks (env : Env) (loop : Bool) (pre header : List Nat)
    (chunks : List Chunk) (endSize : Nat) (post : List Nat) (w : State) (fuel : Nat)
    (hh : header.length < 4294967296) (hc : ∀ c ∈ chunks, c.WellFormed)
    (he : endSize < 4294967296) (hfuel : chunks.length < fuel) :
    readSound env fuel false loop
        { data := pre ++ soundFileBytes header chunks endSize ++ post, pos := pre.length } w =
      Res.ret
        { data := pre ++ soundFileBytes header chunks endSize ++ post,
          pos := pre.length + (soundFileBytes header chunks endSize).length }
        ((chunks.foldl (chunkStep env loop)
          ({ data := pre ++ soundFileBytes header chunks endSize ++ post,
             pos := pre.length + 12 + header.length }, w)).2.call Call.updateEvents) ∧
    sfxStreams ((chunks.foldl (chunkStep env loop)
          ({ data := pre ++ soundFileBytes header chunks endSize ++ post,
             pos := pre.length + 12 + header.length }, w)).2.call Call.updateEvents).calls =
      sfxStreams w.calls ++ (chunks.filter (fun c => c.isSound)).map (chunkStream env loop) := by
  set f : File := { data := pre ++ soundFileBytes header chunks endSize ++ post, pos := pre.length }
    with hfdef
  have hf0 : f.rest = le32 1219009121 ++ (le32 0 ++ (le32 header.length ++ (header ++
      (chunkBytes chunks ++ (le32 65535 ++ le32 endSize ++ post))))) := by
    simp [hfdef, File.rest, soundFileBytes, List.append_assoc]
  have r1 := readUint32LE_of_rest f 1219009121 _ hf0 (by decide)
  have hf1 : (f.skip 4).rest = le32 0 ++ (le32 header.length ++ (header ++
      (chunkBytes chunks ++ (le32 65535 ++ le32 endSize ++ post)))) := by
    rw [rest_skip, hf0]; simp [le32]
  have r2 := readUint32LE_of_rest (f.skip 4) 0 _ hf1 (by decide)
  have hf2 : (f.skip 8).rest = le32 header.length ++ (header ++
      (chunkBytes chunks ++ (le32 65535 ++ le32 endSize ++ post))) := by
    rw [← skip_skip f 4 4, rest_skip, hf1]; simp [le32]
  have r3 := readUint32LE_of_rest (f.skip 8) header.length _ hf2 hh
  have hf3 : (f.skip (12 + header.length)).rest =
      chunkBytes chunks ++ (le32 65535 ++ le32 endSize ++ post) := by
    rw [← skip_skip f 12 header.length, ← skip_skip f 8 4, rest_skip, rest_skip, hf2]
    simp [le32]
  obtain ⟨i1, i2, i3⟩ := readSoundLoop_chunks env loop endSize post he chunks fuel 0
    (f.skip (12 + header.length)) w (by decide) hc hf3 hfuel
  have hskip : f.skip (12 + header.length) =
      { data := pre ++ soundFileBytes header chunks endSize ++ post,
        pos := pre.length + 12 + header.length } := by
    simp [hfdef, File.skip, Nat.add_assoc]
  rw [hskip] at i1 i2 i3
  refine ⟨?_, ?_⟩
  · unfold readSound
    simp only [r1, r2, skip_skip, r3, SOUNDMAGIC]
    simp only [ne_eq, not_true_eq_false, if_false, if_true]
    rw [hskip, i1, i3]
    congr 1
    simp [File.skip, soundFileBytes, le32]
    omega
  · simp only [State.call, sfxStreams_append, sfxStreams, List.append_nil]
    exact i2


/-- C6: with `waitTillFinished` false, on a file that holds, from the read
position on, the signature, header tag 0, the header, well-formed chunks and an
end chunk tagged 65535, `readSound` returns for every fuel above the number of
chunks, with the file just after the end chunk; its effect is that of
`chunkStep` on each chunk in order (`playSoundEffect` with the chunk's sample
rate and length `(size - 8) mod 2^32` for a chunk tagged 30 or 31, a skip of
`(size - 8) mod 2^32` bytes for any other) and the streams played are exactly
those of the sound chunks, in order. -/
theorem readSound_chunk_loop (env : Env) (loop : Bool) (pre header : List Nat)
    (chunks : List Chunk) (endSize : Nat) (post : List Nat) (w : State) (fuel : Nat)
    (hh : header.length < 4294967296) (hc : ∀ c ∈ chunks, c.WellFormed)
    (he : endSize < 4294967296) (hfuel : chunks.length < fuel) :
    readSound env fuel false loop
        { data := pre ++ soundFileBytes header chunks endSize ++ post, pos := pre.length } w =
      Res.ret
        { data := pre ++ soundFileBytes header chunks endSize ++ post,
          pos := pre.length + (soundFileBytes header chunks endSize).length }
        ((chunks.foldl (chunkStep env loop)
          ({ data := pre ++ soundFileBytes header chunks endSize ++ post,
             pos := pre.length + 12 + header.length }, w)).2.call Call.updateEvents) ∧
    sfxStreams ((chunks.foldl (chunkStep env loop)
          ({ data := pre ++ soundFileBytes header chunks endSize ++ post,
             pos := pre.length + 12 + header.length }, w)).2.call Call.updateEvents).calls =
      sfxStreams w.calls ++ (chunks.filter (fun c => c.isSound)).map (chunkStream env loop) :=
  readSound_chunks env loop pre header chunks endSize post w fuel hh hc he hfuel

theorem readSound_chunk_loop_witness :
    readSound quietEnv 3 false true
        { data := [9] ++ soundFileBytes [9, 9] sampleChunks 8 ++ [1], pos := [9].length }
        (Music.new 1 true) =
      Res.ret
        { data := [9] ++ soundFileBytes [9, 9] sampleChunks 8 ++ [1],
          pos := [9].length + (soundFileBytes [9, 9] sampleChunks 8).length }
        ((sampleChunks.foldl (chunkStep quietEnv true)
          ({ data := [9] ++ soundFileBytes [9, 9] sampleChunks 8 ++ [1],
             pos := [9].length + 12 + [9, 9].length }, Music.new 1 true)).2.call
          Call.updateEvents) ∧
    sfxStreams ((sampleChunks.foldl (chunkStep quietEnv true)
          ({ data := [9] ++ soundFileBytes [9, 9] sampleChunks 8 ++ [1],
             pos := [9].length + 12 + [9, 9].length }, Music.new 1 true)).2.call
          Call.updateEvents).calls =
      sfxStreams (Music.new 1 true).calls ++
        (sampleChunks.filter (fun c => c.isSound)).map (chunkStream quietEnv true) :=
  readSound_chunk_loop quietEnv true [9] [9, 9] sampleChunks 8 [1] (Music.new 1 true) 3
    (by decide) (by decide) (by decide) (by decide)

/-! ## The return value of `loadSoundEffect` -/

/-- C10 fails on the walk 1 → 123 → 80 → 5: entering room 123 stores the
background position 6; entering room 80 straight from 123 stores the position
of the Laugh track (3) over it; so the background track restarted in room 5 is
sought to 3, not to the position 6 it had when it was last replaced. -/
theorem checkRoomMusic_special_to_special :
    (visit trackEnv 0 123 backgroundPlaying).map (fun w => w.storedPos) = some 6 ∧
    ((visit trackEnv 0 123 backgroundPlaying).bind (visit trackEnv 3 80)).map
      (fun w => w.storedPos) = some 3 ∧
    (((visit trackEnv 0 123 backgroundPlaying).bind (visit trackEnv 3 80)).bind
      (visit trackEnv 2 5)).map (fun w => (w.storedPos, w.musicFile)) =
      some (3, some { data := [1, 2, 3, 4, 5, 6, 7, 8], pos := 3 }) := by
  decide

end Lab

namespace Lua

/-! ## The Identity Table -/

theorem indexOf_lt (a : Addr) : ∀ (l : List Addr) (i : Nat), indexOf a l = some i →
    i < l.length ∧ l[i]? = some a := by
  intro l
  induction l with
  | nil => intro i h; simp [indexOf] at h
  | cons b rest ih =>
    intro i h
    unfold indexOf at h
    by_cases hb : b = a
    · rw [if_pos hb] at h
      injection h with h
      subst h
      simp [hb]
    · rw [if_neg hb] at h
      cases hr : indexOf a rest with
      | none => rw [hr] at h; simp at h
      | some k =>
        rw [hr] at h
        simp at h
        subst h
        have := ih k hr
        exact ⟨by simp; omega, by simpa using this.2⟩

theorem indexOf_append (a : Addr) (m : List Addr) : ∀ (l : List Addr) (i : Nat),
    indexOf a l = some i → indexOf a (l ++ m) = some i := by
  intro l
  induction l with
  | nil => intro i h; simp [indexOf] at h
  | cons b rest ih =>
    intro i h
    rw [List.cons_append]
    unfold indexOf at h ⊢
    by_cases hb : b = a
    · simpa [hb] using h
    · rw [if_neg hb] at h ⊢
      cases hr : indexOf a rest with
      | none => rw [hr] at h; simp at h
      | some k => rw [ih k hr]; rw [hr] at h; exact h

theorem indexOf_eq_none (a : Addr) : ∀ l : List Addr, indexOf a l = none → a ∉ l := by
  intro l
  induction l with
  | nil => intro _; simp
  | cons b rest ih =>
    intro h
    unfold indexOf at h
    by_cases hb : b = a
    · rw [if_pos hb] at h; simp at h
    · rw [if_neg hb] at h
      cases hr : indexOf a rest with
      | none =>
        have := ih hr
        simp [this, Ne.symm hb]
      | some k => rw [hr] at h; simp at h

theorem indexOf_append_self (a : Addr) : ∀ l : List Addr, indexOf a l = none →
    indexOf a (l ++ [a]) = some l.length := by
  intro l
  induction l with
  | nil => intro _; simp [indexOf]
  | cons b rest ih =>
    intro h
    unfold indexOf at h
    by_cases hb : b = a
    · rw [if_pos hb] at h; simp at h
    · rw [if_neg hb] at h
      cases hr : indexOf a rest with
      | none => simp [indexOf, hb, ih hr]
      | some k => rw [hr] at h; simp at h

/-! ## The encoder, case by case -/

theorem encKnown_cases (interp : Interp) (a : Addr) (seen : List Addr) (r : Record)
    (h : encKnown interp a seen = some r) :
    (∃ id, lookupByObject interp.registry a = some id ∧ r = Record.permanentRef id) ∨
    (∃ i, lookupByObject interp.registry a = none ∧ indexOf a seen = some i ∧
      r = Record.backRef i) := by
  unfold encKnown at h
  cases hp : lookupByObject interp.registry a with
  | some id =>
    rw [hp] at h
    injection h with h
    exact Or.inl ⟨id, rfl, h.symm⟩
  | none =>
    rw [hp] at h
    cases hi : indexOf a seen with
    | none => rw [hi] at h; simp at h
    | some i =>
      rw [hi] at h
      injection h with h
      exact Or.inr ⟨i, rfl, rfl, h.symm⟩

theorem encKnown_none (interp : Interp) (a : Addr) (seen : List Addr)
    (h : encKnown interp a seen = none) :
    lookupByObject interp.registry a = none ∧ indexOf a seen = none := by
  unfold encKnown at h
  cases hp : lookupByObject interp.registry a with
  | some id => rw [hp] at h; simp at h
  | none =>
    rw [hp] at h
    cases hi : indexOf a seen with
    | none => exact ⟨rfl, rfl⟩
    | some i => rw [hi] at h; simp at h

theorem encVal_cases (interp : Interp) (fuel : Nat) (v : Value) (seen : List Addr)
    (recs : List Record) (seen1 : List Addr)
    (h : encVal interp fuel v seen = Result.ok (recs, seen1)) :
    ((∀ a, v ≠ Value.ref a) ∧ recs = [scalarRecord v] ∧ seen1 = seen) ∨
    (∃ a id, v = Value.ref a ∧ lookupByObject interp.registry a = some id ∧
      recs = [Record.permanentRef id] ∧ seen1 = seen) ∨
    (∃ a i, v = Value.ref a ∧ lookupByObject interp.registry a = none ∧
      indexOf a seen = some i ∧ recs = [Record.backRef i] ∧ seen1 = seen) ∨
    (∃ a n obj rs, v = Value.ref a ∧ fuel = n + 1 ∧ lookupByObject interp.registry a = none ∧
      indexOf a seen = none ∧ interp.heap[a]? = some obj ∧ obj.supported = true ∧
      encAll (fun v s => encVal interp n v s) obj.children (seen ++ [a]) = Result.ok (rs, seen1) ∧
      recs = obj.opening seen.length ++ rs ++ [Record.terminator]) := by
  have known : ∀ a r, encKnown interp a seen = some r → v = Value.ref a →
      Result.ok ([r], seen) = (Result.ok (recs, seen1) : Result (List Record × List Addr)) →
      (∃ a id, v = Value.ref a ∧ lookupByObject interp.registry a = some id ∧
        recs = [Record.permanentRef id] ∧ seen1 = seen) ∨
      (∃ a i, v = Value.ref a ∧ lookupByObject interp.registry a = none ∧
        indexOf a seen = some i ∧ recs = [Record.backRef i] ∧ seen1 = seen) := by
    intro a r hk hv he
    simp only [Result.ok.injEq, Prod.mk.injEq] at he
    rcases encKnown_cases interp a seen r hk with ⟨id, h1, h2⟩ | ⟨i, h1, h2, h3⟩
    · exact Or.inl ⟨a, id, hv, h1, by rw [← he.1, h2], he.2.symm⟩
    · exact Or.inr ⟨a, i, hv, h1, h2, by rw [← he.1, h3], he.2.symm⟩
  cases v with
  | ref a =>
    right
    cases fuel with
    | zero =>
      rw [encVal] at h
      cases hk : encKnown interp a seen with
      | none => rw [hk] at h; simp at h
      | some r =>
        rw [hk] at h
        rcases known a r hk rfl h with h1 | h1
        · exact Or.inl h1
        · exact Or.inr (Or.inl h1)
    | succ n =>
      rw [encVal] at h
      cases hk : encKnown interp a seen with
      | some r =>
        rw [hk] at h
        rcases known a r hk rfl h with h1 | h1
        · exact Or.inl h1
        · exact Or.inr (Or.inl h1)
      | none =>
        rw [hk] at h
        simp only at h
        obtain ⟨hp, hi⟩ := encKnown_none interp a seen hk
        right; right
        cases ho : interp.heap[a]? with
        | none => rw [ho] at h; simp at h
        | some obj =>
          rw [ho] at h
          simp only at h
          by_cases hs : obj.supported = false
          · rw [if_pos hs] at h; simp at h
          · rw [if_neg hs] at h
            cases he : encAll (fun v s => encVal interp n v s) obj.children (seen ++ [a]) with
            | error e => rw [he] at h; simp at h
            | ok r =>
              obtain ⟨rs, s2⟩ := r
              rw [he] at h
              simp only [Result.ok.injEq, Prod.mk.injEq] at h
              refine ⟨a, n, obj, rs, rfl, rfl, hp, hi, ho, by simpa using hs, ?_, h.1.symm⟩
              rw [he, h.2]
  | nil =>
    left; cases fuel <;> simp [encVal] at h <;>
      exact ⟨by simp, by simp [scalarRecord, h.1], h.2.symm⟩
  | boolean b =>
    left; cases fuel <;> simp [encVal] at h <;>
      exact ⟨by simp, by simp [scalarRecord, h.1], h.2.symm⟩
  | integer i =>
    left; cases fuel <;> simp [encVal] at h <;>
      exact ⟨by simp, by simp [scalarRecord, h.1], h.2.symm⟩
  | float x =>
    left; cases fuel <;> simp [encVal] at h <;>
      exact ⟨by simp, by simp [scalarRecord, h.1], h.2.symm⟩
  | string s =>
    left; cases fuel <;> simp [encVal] at h <;>
      exact ⟨by simp, by simp [scalarRecord, h.1], h.2.symm⟩

theorem encAll_cons_ok (enc : Value → List Addr → Result (List Record × List Addr))
    (v : Value) (vs : List Value) (seen : List Addr) (recs : List Record) (seen2 : List Addr)
    (h : encAll enc (v :: vs) seen = Result.ok (recs, seen2)) :
    ∃ r1 s1 r2, enc v seen = Result.ok (r1, s1) ∧ encAll enc vs s1 = Result.ok (r2, seen2) ∧
      recs = r1 ++ r2 := by
  unfold encAll at h
  cases h1 : enc v seen with
  | error e => rw [h1] at h; simp at h
  | ok p =>
    obtain ⟨r1, s1⟩ := p
    rw [h1] at h
    simp only at h
    cases h2 : encAll enc vs s1 with
    | error e => rw [h2] at h; simp at h
    | ok q =>
      obtain ⟨r2, s2⟩ := q
      rw [h2] at h
      simp only [Result.ok.injEq, Prod.mk.injEq] at h
      exact ⟨r1, s1, r2, rfl, by rw [h2, h.2], h.1.symm⟩

/-! ## The decoder, step by step -/

theorem steps_append (base : Nat) (reg : List (String × Addr)) :
    ∀ (a b : List Record) (d : DState),
      steps base reg d (a ++ b) =
        match steps base reg d a with
        | Result.ok d1 => steps base reg d1 b
        | Result.error e => Result.error e := by
  intro a
  induction a with
  | nil => intro b d; simp [steps]
  | cons r rs ih =>
    intro b d
    simp only [List.cons_append, steps]
    cases step base reg d r with
    | error e => rfl
    | ok d1 => exact ih b d1

theorem push_index (stack : List Frame) (roots : List Slot) (s : Slot) :
    (push (stack, roots) s).1.map Frame.index = stack.map Frame.index := by
  cases stack <;> simp [push]

theorem foldl_push_cons (ss : List Slot) : ∀ (f : Frame) (stack : List Frame) (roots : List Slot),
    ss.foldl push (f :: stack, roots) =
      ({ f with children := f.children ++ ss } :: stack, roots) := by
  induction ss with
  | nil => intro f stack roots; simp
  | cons s ss ih =>
    intro f stack roots
    simp only [List.foldl_cons, push]
    rw [ih]
    simp [List.append_assoc]

theorem foldl_push_nil (ss : List Slot) : ∀ roots : List Slot,
    ss.foldl push ([], roots) = ([], roots ++ ss) := by
  induction ss with
  | nil => intro roots; simp
  | cons s ss ih =>
    intro roots
    simp only [List.foldl_cons, push]
    rw [ih]
    simp [List.append_assoc]

theorem Resolvable_append (reg : List (String × Addr)) (a b : List Record) :
    Resolvable reg (a ++ b) ↔ Resolvable reg a ∧ Resolvable reg b := by
  unfold Resolvable
  constructor
  · intro h
    exact ⟨fun id hm => h id (List.mem_append_left _ hm),
      fun id hm => h id (List.mem_append_right _ hm)⟩
  · rintro ⟨h1, h2⟩ id hm
    rcases List.mem_append.1 hm with hm | hm
    · exact h1 id hm
    · exact h2 id hm

theorem image_ref (source : Interp) (reg : List (String × Addr)) (base : Nat)
    (seen : List Addr) (a : Addr) :
    image source reg base seen (Value.ref a) =
      match lookupByObject source.registry a with
      | some id => (lookupByIdentifier reg id).map Value.ref
      | none => (indexOf a seen).map (fun i => Value.ref (base + i)) := rfl

theorem image_mono (source : Interp) (reg : List (String × Addr)) (base : Nat)
    (seen ext : List Addr) (v w : Value) (h : image source reg base seen v = some w) :
    image source reg base (seen ++ ext) v = some w := by
  cases v with
  | ref a =>
    rw [image_ref] at h ⊢
    cases hp : lookupByObject source.registry a with
    | some id => rw [hp] at h; exact h
    | none =>
      rw [hp] at h
      simp only at h ⊢
      cases hi : indexOf a seen with
      | none => rw [hi] at h; simp at h
      | some i => rw [hi] at h; rw [indexOf_append a ext seen i hi]; exact h
  | _ => exact h

theorem SlotFor_mono (source : Interp) (reg : List (String × Addr)) (base : Nat)
    (seen ext : List Addr) (s : Slot) (v : Value) (h : SlotFor source reg base seen s v) :
    SlotFor source reg base (seen ++ ext) s v :=
  ⟨image_mono source reg base seen ext v _ h.1,
    fun j hj => by have := h.2 j hj; simp; omega⟩

theorem ObjFor_mono (source : Interp) (reg : List (String × Addr)) (base : Nat)
    (seen ext : List Addr) (p : PObj) (a : Addr) (h : ObjFor source reg base seen p a) :
    ObjFor source reg base (seen ++ ext) p a := by
  obtain ⟨h1, obj, h2, h3, h4, h5, h6⟩ := h
  exact ⟨h1, obj, h2, h3, h4, h5,
    h6.imp (fun s v hs => SlotFor_mono source reg base seen ext s v hs)⟩

/-- The decoder follows a sequence of encoded values when it follows each. -/
theorem encAll_sim (source : Interp) (reg : List (String × Addr)) (base : Nat)
    (enc : Value → List Addr → Result (List Record × List Addr))
    (henc : SimOne source reg base enc) : SimMany source reg base enc := by
  intro vs
  induction vs with
  | nil =>
    intro seen recs seen1 h arena idt res stack roots hlen hid hres
    simp only [encAll, Result.ok.injEq, Prod.mk.injEq] at h
    obtain ⟨h1, h2⟩ := h
    subst h1 h2
    refine ⟨fun hn => absurd (fun id hm => by simp at hm) hn, fun _ => ?_⟩
    exact ⟨[], [], idt, res, [], by simp, by simp [steps], List.Forall₂.nil,
      hid, hres, List.Forall₂.nil⟩
  | cons v vs ih =>
    intro seen recs seen1 h arena idt res stack roots hlen hid hres
    obtain ⟨r1, s1, r2, h1, h2, hrec⟩ := encAll_cons_ok enc v vs seen recs seen1 h
    subst hrec
    have A := henc v seen r1 s1 h1 arena idt res stack roots hlen hid hres
    by_cases hr1 : Resolvable reg r1
    · obtain ⟨ext1, objs1, idt1, res1, s, hs1, hst, hobjs, hid1, hres1, hslot⟩ := A.2 hr1
      subst hs1
      have hlen1 : (arena ++ objs1).length = (seen ++ ext1).length := by
        simp [hlen, hobjs.length_eq]
      have hres1b : ResOk res1 (push (stack, roots) s).1 (seen ++ ext1).length := by
        intro j hj
        rw [push_index]
        exact hres1 j hj
      have B := ih (seen ++ ext1) r2 seen1 h2 (arena ++ objs1) idt1 res1
        (push (stack, roots) s).1 (push (stack, roots) s).2 hlen1 hid1 hres1b
      constructor
      · intro hn
        have hn2 : ¬ Resolvable reg r2 := fun h2r =>
          hn ((Resolvable_append reg r1 r2).2 ⟨hr1, h2r⟩)
        rw [steps_append, hst]
        exact B.1 hn2
      · intro hr
        have hr2 := ((Resolvable_append reg r1 r2).1 hr).2
        obtain ⟨ext2, objs2, idt2, res2, ss, hs2, hst2, hobjs2, hid2, hres2, hslots⟩ := B.2 hr2
        subst hs2
        refine ⟨ext1 ++ ext2, objs1 ++ objs2, idt2, res2, s :: ss, by simp, ?_, ?_,
          by simpa using hid2, ?_, ?_⟩
        · rw [steps_append, hst]
          simp only
          rw [hst2]
          simp [List.append_assoc]
        · exact List.rel_append
            (hobjs.imp (fun p a hp => ObjFor_mono source reg base (seen ++ ext1) ext2 p a hp))
            hobjs2
        · intro j hj
          have := hres2 j (by simpa using hj)
          rwa [push_index] at this
        · exact List.Forall₂.cons
            (SlotFor_mono source reg base (seen ++ ext1) ext2 s v hslot) hslots
    · constructor
      · intro _
        rw [steps_append, A.1 hr1]
      · intro hr
        exact absurd ((Resolvable_append reg r1 r2).1 hr).1 hr1

theorem steps_single (base : Nat) (reg : List (String × Addr)) (d : DState) (r : Record) :
    steps base reg d [r] = step base reg d r := by
  simp only [steps]
  cases step base reg d r <;> rfl

theorem step_scalar (base : Nat) (reg : List (String × Addr)) (d : DState) (v : Value)
    (hv : ∀ a, v ≠ Value.ref a) :
    step base reg d (scalarRecord v) = Result.ok (d.deliver (Slot.val v)) := by
  cases v with
  | ref a => exact absurd rfl (hv a)
  | _ => rfl

theorem flatten_length (es : List (Value × Value)) : (flatten es).length = 2 * es.length := by
  induction es with
  | nil => rfl
  | cons e es ih =>
    obtain ⟨k, v⟩ := e
    simp [flatten, ih]
    omega

theorem set_middle (arena objs : List PObj) (x y : PObj) :
    ((arena ++ [x]) ++ objs).set arena.length y = arena ++ (y :: objs) := by
  induction arena with
  | nil => simp
  | cons a arena ih => simp

theorem steps_opening (base : Nat) (reg : List (String × Addr)) (obj : Obj)
    (hs : obj.supported = true) (arena : List PObj) (idt : List (Nat × Nat)) (res : List Nat)
    (stack : List Frame) (roots : List Slot) (k : Nat) :
    steps base reg ⟨arena, idt, res, stack, roots⟩ (obj.opening k) =
      Result.ok ⟨arena ++ [placeholder obj.kind], (k, arena.length) :: idt, res,
        openFrame obj arena.length k :: stack, roots⟩ := by
  cases obj with
  | table m es => rfl
  | closure c ups => rfl
  | userdata t => simp [Obj.supported] at hs

theorem build_openFrame (obj : Obj) (hs : obj.supported = true) (pos k : Nat) (ss : List Slot)
    (hl : ss.length = obj.children.length) :
    Frame.build { openFrame obj pos k with children := ss } =
      some { kind := obj.kind, code := obj.code, children := ss } := by
  cases obj with
  | table m es =>
    have : ss.length % 2 = 1 := by
      rw [hl]
      simp [Obj.children, flatten_length]
      omega
    simp [Frame.build, openFrame, Obj.kind, Obj.code, this]
  | closure c ups => simp [Frame.build, openFrame, Obj.kind, Obj.code]
  | userdata t => simp [Obj.supported] at hs

theorem opening_no_permanent (obj : Obj) (k : Nat) (id : String) :
    Record.permanentRef id ∉ obj.opening k := by
  cases obj <;> simp [Obj.opening]

theorem sim_scalar (source : Interp) (reg : List (String × Addr)) (base : Nat)
    (v : Value) (seen : List Addr) (recs : List Record)
    (hv : ∀ a, v ≠ Value.ref a) (hr : recs = [scalarRecord v])
    (arena : List PObj) (idt : List (Nat × Nat)) (res : List Nat) (stack : List Frame)
    (roots : List Slot) (hid : IdOk idt seen.length) (hres : ResOk res stack seen.length) :
    (¬ Resolvable reg recs →
      steps base reg ⟨arena, idt, res, stack, roots⟩ recs =
        Result.error Error.UnknownPermanent) ∧
    (Resolvable reg recs →
      ∃ ext objs idt1 res1 s, seen = seen ++ ext ∧
        steps base reg ⟨arena, idt, res, stack, roots⟩ recs =
          Result.ok ⟨arena ++ objs, idt1, res1, (push (stack, roots) s).1,
            (push (stack, roots) s).2⟩ ∧
        List.Forall₂ (ObjFor source reg base seen) objs ext ∧
        IdOk idt1 seen.length ∧ ResOk res1 stack seen.length ∧
        SlotFor source reg base seen s v) := by
  subst hr
  have hres0 : Resolvable reg [scalarRecord v] := by
    intro id hm
    cases v <;> simp [scalarRecord] at hm
  refine ⟨fun hn => absurd hres0 hn, fun _ => ?_⟩
  refine ⟨[], [], idt, res, Slot.val v, by simp, ?_, List.Forall₂.nil, hid, hres, ?_⟩
  · rw [steps_single, step_scalar base reg _ v hv]
    simp [DState.deliver]
  · refine ⟨?_, fun j hj => by simp at hj⟩
    cases v with
    | ref a => exact absurd rfl (hv a)
    | _ => rfl

theorem sim_permanent (source : Interp) (reg : List (String × Addr)) (base : Nat)
    (v : Value) (seen : List Addr) (recs : List Record) (a : Addr)
    (id : String) (hv : v = Value.ref a) (hp : lookupByObject source.registry a = some id)
    (hr : recs = [Record.permanentRef id])
    (arena : List PObj) (idt : List (Nat × Nat)) (res : List Nat) (stack : List Frame)
    (roots : List Slot) (hid : IdOk idt seen.length) (hres : ResOk res stack seen.length) :
    (¬ Resolvable reg recs →
      steps base reg ⟨arena, idt, res, stack, roots⟩ recs =
        Result.error Error.UnknownPermanent) ∧
    (Resolvable reg recs →
      ∃ ext objs idt1 res1 s, seen = seen ++ ext ∧
        steps base reg ⟨arena, idt, res, stack, roots⟩ recs =
          Result.ok ⟨arena ++ objs, idt1, res1, (push (stack, roots) s).1,
            (push (stack, roots) s).2⟩ ∧
        List.Forall₂ (ObjFor source reg base seen) objs ext ∧
        IdOk idt1 seen.length ∧ ResOk res1 stack seen.length ∧
        SlotFor source reg base seen s v) := by
  subst hr hv
  cases ht : lookupByIdentifier reg id with
  | none =>
    refine ⟨fun _ => ?_, fun hr => ?_⟩
    · rw [steps_single]
      simp [step, ht]
    · obtain ⟨t, h1⟩ := hr id (by simp)
      rw [ht] at h1
      exact absurd h1 (by simp)
  | some t =>
    refine ⟨fun hn => absurd (fun id1 hm => ?_) hn, fun _ => ?_⟩
    · simp only [List.mem_singleton, Record.permanentRef.injEq] at hm
      exact ⟨t, by rw [hm, ht]⟩
    · refine ⟨[], [], idt, res, Slot.val (Value.ref t), by simp, ?_, List.Forall₂.nil, hid,
        hres, ?_⟩
      · rw [steps_single]
        simp [step, ht, DState.deliver]
      · refine ⟨?_, fun j hj => by simp at hj⟩
        rw [image_ref, hp]
        simp [ht, Slot.target]

theorem sim_backRef (source : Interp) (reg : List (String × Addr)) (base : Nat)
    (v : Value) (seen : List Addr) (recs : List Record) (a : Addr)
    (i : Nat) (hv : v = Value.ref a) (hp : lookupByObject source.registry a = none)
    (hi : indexOf a seen = some i) (hr : recs = [Record.backRef i])
    (arena : List PObj) (idt : List (Nat × Nat)) (res : List Nat) (stack : List Frame)
    (roots : List Slot) (hid : IdOk idt seen.length) (hres : ResOk res stack seen.length) :
    (¬ Resolvable reg recs →
      steps base reg ⟨arena, idt, res, stack, roots⟩ recs =
        Result.error Error.UnknownPermanent) ∧
    (Resolvable reg recs →
      ∃ ext objs idt1 res1 s, seen = seen ++ ext ∧
        steps base reg ⟨arena, idt, res, stack, roots⟩ recs =
          Result.ok ⟨arena ++ objs, idt1, res1, (push (stack, roots) s).1,
            (push (stack, roots) s).2⟩ ∧
        List.Forall₂ (ObjFor source reg base seen) objs ext ∧
        IdOk idt1 seen.length ∧ ResOk res1 stack seen.length ∧
        SlotFor source reg base seen s v) := by
  subst hr hv
  have hres0 : Resolvable reg [Record.backRef i] := by
    intro id hm
    simp at hm
  have hlt := (indexOf_lt a seen i hi).1
  have hlook := hid i hlt
  have himg : image source reg base seen (Value.ref a) = some (Value.ref (base + i)) := by
    rw [image_ref, hp]
    simp [hi]
  refine ⟨fun hn => absurd hres0 hn, fun _ => ?_⟩
  by_cases hin : i ∈ res
  · refine ⟨[], [], idt, res, Slot.val (Value.ref (base + i)), by simp, ?_, List.Forall₂.nil,
      hid, hres, ⟨himg, fun j hj => by simp at hj⟩⟩
    rw [steps_single]
    simp [step, hlook, hin, DState.deliver]
  · refine ⟨[], [], idt, res, Slot.pending i, by simp, ?_, List.Forall₂.nil,
      hid, hres, ⟨himg, fun j hj => ?_⟩⟩
    · rw [steps_single]
      simp [step, hlook, hin, DState.deliver]
    · injection hj with hj
      rw [← hj]
      exact hlt

/-- The decoder follows the encoder: on the records of an encoded value it
fails with `UnknownPermanent` when the target registry lacks one of the
identifiers referenced, and otherwise constructs one object for each object
the encoder first visited and hands over a slot that stands for the value. -/
theorem encVal_sim (source : Interp) (reg : List (String × Addr)) (base : Nat) :
    ∀ fuel : Nat, SimOne source reg base (fun v s => encVal source fuel v s) := by
  intro fuel
  induction fuel with
  | zero =>
    intro v seen recs seen1 h arena idt res stack roots hlen hid hres
    rcases encVal_cases source 0 v seen recs seen1 h with
      ⟨hv, hr, hs⟩ | ⟨a, id, hv, hp, hr, hs⟩ | ⟨a, i, hv, hp, hi, hr, hs⟩ |
      ⟨a, n, obj, rs, hv, hf, _⟩
    · rw [hs]
      exact sim_scalar source reg base v seen recs hv hr arena idt res stack roots hid hres
    · rw [hs]
      exact sim_permanent source reg base v seen recs a id hv hp hr arena idt res stack
        roots hid hres
    · rw [hs]
      exact sim_backRef source reg base v seen recs a i hv hp hi hr arena idt res stack
        roots hid hres
    · exact absurd hf (by omega)
  | succ m ih =>
    intro v seen recs seen1 h arena idt res stack roots hlen hid hres
    rcases encVal_cases source (m + 1) v seen recs seen1 h with
      ⟨hv, hr, hs⟩ | ⟨a, id, hv, hp, hr, hs⟩ | ⟨a, i, hv, hp, hi, hr, hs⟩ |
      ⟨a, n, obj, rs, hv, hf, hp, hi, ho, hsup, henc, hr⟩
    · rw [hs]
      exact sim_scalar source reg base v seen recs hv hr arena idt res stack roots hid hres
    · rw [hs]
      exact sim_permanent source reg base v seen recs a id hv hp hr arena idt res stack
        roots hid hres
    · rw [hs]
      exact sim_backRef source reg base v seen recs a i hv hp hi hr arena idt res stack
        roots hid hres
    · have hn : n = m := by omega
      subst hn
      subst hv
      subst hr
      have hlen1 : (arena ++ [placeholder obj.kind]).length = (seen ++ [a]).length := by
        simp [hlen]
      have hid1 : IdOk ((seen.length, arena.length) :: idt) (seen ++ [a]).length := by
        intro j hj
        simp only [List.length_append, List.length_singleton] at hj
        unfold lookupIndex
        by_cases hjk : seen.length = j
        · rw [if_pos hjk, hlen, hjk]
        · rw [if_neg hjk]
          exact hid j (by omega)
      have hres1 : ResOk res (openFrame obj arena.length seen.length :: stack)
          (seen ++ [a]).length := by
        intro j hj
        simp only [List.length_append, List.length_singleton] at hj
        by_cases hjk : j = seen.length
        · right; simp [openFrame, hjk]
        · rcases hres j (by omega) with h1 | h1
          · exact Or.inl h1
          · right; simp only [List.map_cons, List.mem_cons]; exact Or.inr h1
      have B := encAll_sim source reg base _ ih obj.children (seen ++ [a]) rs seen1 henc
        (arena ++ [placeholder obj.kind]) ((seen.length, arena.length) :: idt) res
        (openFrame obj arena.length seen.length :: stack) roots hlen1 hid1 hres1
      have hres_iff : Resolvable reg (obj.opening seen.length ++ rs ++ [Record.terminator]) ↔
          Resolvable reg rs := by
        constructor
        · intro hr id hm
          exact hr id (List.mem_append_left _ (List.mem_append_right _ hm))
        · intro hr id hm
          rcases List.mem_append.1 hm with hm | hm
          · rcases List.mem_append.1 hm with hm | hm
            · exact absurd hm (opening_no_permanent obj _ id)
            · exact hr id hm
          · simp at hm
      constructor
      · intro hnr
        have hnr2 : ¬ Resolvable reg rs := fun h2 => hnr (hres_iff.2 h2)
        rw [List.append_assoc, steps_append, steps_opening base reg obj hsup]
        simp only
        rw [steps_append, B.1 hnr2]
      · intro hres2
        obtain ⟨ext, objs, idt1, res1, ss, hs1, hst, hobjs, hid2, hres3, hslots⟩ :=
          B.2 (hres_iff.1 hres2)
        subst hs1
        have hidx : indexOf a (seen ++ [a] ++ ext) = some seen.length :=
          indexOf_append a ext _ _ (indexOf_append_self a seen hi)
        refine ⟨[a] ++ ext, { kind := obj.kind, code := obj.code, children := ss } :: objs,
          idt1, seen.length :: res1, Slot.val (Value.ref (base + arena.length)),
          by simp, ?_, ?_, by simpa using hid2, ?_, ?_⟩
        · rw [List.append_assoc, steps_append, steps_opening base reg obj hsup]
          simp only
          rw [steps_append, hst]
          simp only
          rw [foldl_push_cons, steps_single]
          simp only [step]
          have hb := build_openFrame obj hsup arena.length seen.length ss hslots.length_eq
          simp only [openFrame, List.nil_append] at hb ⊢
          rw [hb]
          simp only [DState.deliver]
          rw [set_middle]
        · refine List.Forall₂.cons ?_ ?_
          · exact ⟨hp, obj, ho, hsup, rfl, rfl, by simpa using hslots⟩
          · simpa using hobjs
        · intro j hj
          rcases hres3 j (by simpa using hj) with h1 | h1
          · exact Or.inl (List.mem_cons_of_mem _ h1)
          · simp only [List.map_cons, List.mem_cons] at h1
            rcases h1 with h1 | h1
            · left; simp [h1, openFrame]
            · exact Or.inr h1
        · refine ⟨?_, fun j hj => by simp at hj⟩
          rw [image_ref, hp]
          simp only [Slot.target]
          rw [hidx, hlen]
          rfl

/-! ## Resolving the Pending Patches -/

theorem exists_of_forall₂_mem {α β : Type} {r : α → β → Prop} :
    ∀ {l : List α} {m : List β}, List.Forall₂ r l m → ∀ {x : α}, x ∈ l →
      ∃ y, y ∈ m ∧ r x y := by
  intro l m h
  induction h with
  | nil => intro x hx; simp at hx
  | cons h1 _ ih =>
    intro x hx
    rcases List.mem_cons.1 hx with hx | hx
    · subst hx
      exact ⟨_, List.mem_cons_self _ _, h1⟩
    · obtain ⟨y, hy, hr⟩ := ih hx
      exact ⟨y, List.mem_cons_of_mem _ hy, hr⟩


theorem translate_of_SlotFor (source : Interp) (reg : List (String × Addr)) (base : Nat)
    (seen : List Addr) (s : Slot) (v : Value) (h : SlotFor source reg base seen s v) :
    translate source reg base seen v = s.target base := by
  unfold translate
  rw [h.1]
  rfl

theorem resolveSlot_of_SlotFor (source : Interp) (reg : List (String × Addr)) (base : Nat)
    (seen : List Addr) (d : DState) (hid : IdOk d.idTable seen.length)
    (hres : ∀ j, j < seen.length → j ∈ d.resolved) (s : Slot) (v : Value)
    (h : SlotFor source reg base seen s v) :
    resolveSlot base d s = Result.ok (translate source reg base seen v) := by
  rw [translate_of_SlotFor source reg base seen s v h]
  cases s with
  | val w => rfl
  | pending j =>
    have hj := h.2 j rfl
    simp [resolveSlot, hid j hj, hres j hj, Slot.target]

theorem resolveAll_of_SlotFor (source : Interp) (reg : List (String × Addr)) (base : Nat)
    (seen : List Addr) (d : DState) (hid : IdOk d.idTable seen.length)
    (hres : ∀ j, j < seen.length → j ∈ d.resolved) :
    ∀ (ss : List Slot) (vs : List Value),
      List.Forall₂ (SlotFor source reg base seen) ss vs →
      resolveAll base d ss = Result.ok (vs.map (translate source reg base seen)) := by
  intro ss vs h
  induction h with
  | nil => rfl
  | cons h1 _ ih =>
    simp only [resolveAll, resolveSlot_of_SlotFor source reg base seen d hid hres _ _ h1, ih,
      List.map_cons]

theorem unflatten_map_flatten (f : Value → Value) (es : List (Value × Value)) :
    unflatten ((flatten es).map f) = es.map (fun e => (f e.1, f e.2)) := by
  induction es with
  | nil => rfl
  | cons e es ih =>
    obtain ⟨k, v⟩ := e
    simp [flatten, unflatten, ih]

theorem rebuild_map (f : Value → Value) (obj : Obj) (hs : obj.supported = true) :
    rebuild obj.kind obj.code (obj.children.map f) = mapObj f obj := by
  cases obj with
  | table m es => simp [Obj.kind, Obj.children, rebuild, mapObj, unflatten_map_flatten]
  | closure c ups => simp [Obj.kind, Obj.code, Obj.children, rebuild, mapObj]
  | userdata t => simp [Obj.supported] at hs

theorem resolveObj_of_ObjFor (source : Interp) (reg : List (String × Addr)) (base : Nat)
    (seen : List Addr) (d : DState) (hid : IdOk d.idTable seen.length)
    (hres : ∀ j, j < seen.length → j ∈ d.resolved) (p : PObj) (a : Addr)
    (h : ObjFor source reg base seen p a) :
    ∃ o, resolveObj base d p = Result.ok o ∧ Decoded source reg base seen o a := by
  obtain ⟨h1, obj, h2, h3, h4, h5, h6⟩ := h
  refine ⟨mapObj (translate source reg base seen) obj, ?_, h1, obj, h2, h3, rfl, ?_⟩
  · unfold resolveObj
    rw [resolveAll_of_SlotFor source reg base seen d hid hres _ _ h6, h4, h5]
    simp only
    rw [rebuild_map _ obj h3]
  · intro c hc
    obtain ⟨s, _, hs⟩ := exists_of_forall₂_mem (List.Forall₂.flip h6) hc
    exact ⟨_, hs.1⟩

theorem resolveArena_of_ObjFor (source : Interp) (reg : List (String × Addr)) (base : Nat)
    (seen : List Addr) (d : DState) (hid : IdOk d.idTable seen.length)
    (hres : ∀ j, j < seen.length → j ∈ d.resolved) :
    ∀ (objs : List PObj) (ext : List Addr),
      List.Forall₂ (ObjFor source reg base seen) objs ext →
      ∃ os, resolveArena base d objs = Result.ok os ∧
        List.Forall₂ (Decoded source reg base seen) os ext := by
  intro objs ext h
  induction h with
  | nil => exact ⟨[], rfl, List.Forall₂.nil⟩
  | cons h1 _ ih =>
    obtain ⟨o, ho, hd⟩ := resolveObj_of_ObjFor source reg base seen d hid hres _ _ h1
    obtain ⟨os, hos, hds⟩ := ih
    exact ⟨o :: os, by simp only [resolveArena, ho, hos], List.Forall₂.cons hd hds⟩

theorem persistLua_ok (interp : Interp) (roots : List Value) (stream : List Record)
    (h : persistLua interp roots = Result.ok stream) :
    ∃ seen, encAll (fun v s => encVal interp (interp.heap.length + 1) v s) roots [] =
      Result.ok (stream, seen) := by
  unfold persistLua at h
  cases he : encAll (fun v s => encVal interp (interp.heap.length + 1) v s) roots [] with
  | error e => rw [he] at h; simp at h
  | ok r =>
    obtain ⟨rs, seen⟩ := r
    rw [he] at h
    simp only [Result.ok.injEq] at h
    exact ⟨seen, by rw [h]⟩

/-- Decoding what the encoder wrote: `UnknownPermanent` when the target registry
lacks an identifier the stream references; otherwise the roots come back
translated and the objects constructed are, in order, the objects the encoder
first visited, each with its children translated. -/
theorem persist_decode (source target : Interp) (roots : List Value) (stream : List Record)
    (h : persistLua source roots = Result.ok stream) :
    (¬ Resolvable target.registry stream →
      decode target stream = Result.error Error.UnknownPermanent) ∧
    (Resolvable target.registry stream →
      ∃ seen objs,
        decode target stream =
          Result.ok (roots.map (translate source target.registry target.heap.length seen),
            objs) ∧
        List.Forall₂ (Decoded source target.registry target.heap.length seen) objs seen ∧
        ∀ r ∈ roots, ∃ w, image source target.registry target.heap.length seen r = some w) := by
  obtain ⟨seen, he⟩ := persistLua_ok source roots stream h
  have A := encAll_sim source target.registry target.heap.length _
    (encVal_sim source target.registry target.heap.length (source.heap.length + 1))
    roots [] stream seen he [] [] [] [] [] rfl (fun j hj => absurd hj (by simp))
    (fun j hj => absurd hj (by simp))
  constructor
  · intro hn
    unfold decode
    rw [show DState.init = ⟨[], [], [], [], []⟩ from rfl, A.1 hn]
  · intro hr
    obtain ⟨ext, objs, idt, res, ss, hs, hst, hobjs, hid, hres, hslots⟩ := A.2 hr
    simp only [List.nil_append] at hs hst
    subst hs
    have hres2 : ∀ j, j < seen.length → j ∈ res := by
      intro j hj
      rcases hres j hj with h1 | h1
      · exact h1
      · simp at h1
    rw [foldl_push_nil] at hst
    obtain ⟨os, hos, hds⟩ := resolveArena_of_ObjFor source target.registry target.heap.length
      seen ⟨objs, idt, res, [], [] ++ ss⟩ hid hres2 objs seen hobjs
    have hroots := resolveAll_of_SlotFor source target.registry target.heap.length
      seen ⟨objs, idt, res, [], [] ++ ss⟩ hid hres2 ss roots hslots
    refine ⟨seen, os, ?_, hds, ?_⟩
    · unfold decode
      rw [show DState.init = ⟨[], [], [], [], []⟩ from rfl, hst]
      simp only [hos]
      rw [show ([] : List Slot) ++ ss = ss from rfl] at hroots ⊢
      rw [hroots]
    · intro r hrm
      obtain ⟨s, _, hs⟩ := exists_of_forall₂_mem (List.Forall₂.flip hslots) hrm
      exact ⟨_, hs.1⟩

/-! ## The encoder's walk is bounded -/

theorem length_le_of_nodup_lt (l : List Nat) (n : Nat) (hnd : l.Nodup) (hlt : ∀ x ∈ l, x < n) :
    l.length ≤ n := by
  have hsub : l ⊆ List.range n := fun x hx => List.mem_range.2 (hlt x hx)
  have := (List.subperm_of_subset hnd hsub).length_le
  simpa using this

theorem encAll_fuel (interp : Interp) (enc : Value → List Addr → Result (List Record × List Addr))
    (n : Nat)
    (henc : ∀ v seen, seen.Nodup → (∀ x ∈ seen, x < interp.heap.length) →
      interp.heap.length + 1 ≤ n + seen.length →
      enc v seen ≠ Result.error Error.OutOfFuel ∧
      ∀ recs seen1, enc v seen = Result.ok (recs, seen1) →
        seen1.Nodup ∧ (∀ x ∈ seen1, x < interp.heap.length) ∧ seen.length ≤ seen1.length) :
    ∀ vs seen, seen.Nodup → (∀ x ∈ seen, x < interp.heap.length) →
      interp.heap.length + 1 ≤ n + seen.length →
      encAll enc vs seen ≠ Result.error Error.OutOfFuel ∧
      ∀ recs seen1, encAll enc vs seen = Result.ok (recs, seen1) →
        seen1.Nodup ∧ (∀ x ∈ seen1, x < interp.heap.length) ∧ seen.length ≤ seen1.length := by
  intro vs
  induction vs with
  | nil =>
    intro seen hnd hlt _
    refine ⟨by simp [encAll], ?_⟩
    intro recs seen1 h
    simp only [encAll, Result.ok.injEq, Prod.mk.injEq] at h
    rw [← h.2]
    exact ⟨hnd, hlt, le_refl _⟩
  | cons v vs ih =>
    intro seen hnd hlt hf
    obtain ⟨h1, h2⟩ := henc v seen hnd hlt hf
    unfold encAll
    cases he : enc v seen with
    | error e =>
      refine ⟨?_, by simp⟩
      intro hc
      simp only [Result.error.injEq] at hc
      rw [hc] at he
      exact h1 he
    | ok p =>
      obtain ⟨r1, s1⟩ := p
      obtain ⟨hnd1, hlt1, hle1⟩ := h2 r1 s1 he
      obtain ⟨h3, h4⟩ := ih s1 hnd1 hlt1 (by omega)
      simp only
      cases he2 : encAll enc vs s1 with
      | error e =>
        refine ⟨?_, by simp⟩
        intro hc
        simp only [Result.error.injEq] at hc
        rw [hc] at he2
        exact h3 he2
      | ok q =>
        obtain ⟨r2, s2⟩ := q
        obtain ⟨hnd2, hlt2, hle2⟩ := h4 r2 s2 he2
        refine ⟨by simp, ?_⟩
        intro recs seen1 h
        simp only [Result.ok.injEq, Prod.mk.injEq] at h
        rw [← h.2]
        exact ⟨hnd2, hlt2, by omega⟩

theorem encVal_fuel (interp : Interp) : ∀ (n : Nat) (v : Value) (seen : List Addr),
    seen.Nodup → (∀ x ∈ seen, x < interp.heap.length) →
    interp.heap.length + 1 ≤ n + seen.length →
    encVal interp n v seen ≠ Result.error Error.OutOfFuel ∧
    ∀ recs seen1, encVal interp n v seen = Result.ok (recs, seen1) →
      seen1.Nodup ∧ (∀ x ∈ seen1, x < interp.heap.length) ∧ seen.length ≤ seen1.length := by
  intro n
  induction n with
  | zero =>
    intro v seen hnd hlt hf
    have := length_le_of_nodup_lt seen _ hnd hlt
    omega
  | succ n ih =>
    intro v seen hnd hlt hf
    have hscalar : (∀ a, v ≠ Value.ref a) →
        encVal interp (n + 1) v seen = Result.ok ([scalarRecord v], seen) := by
      intro hv
      cases v with
      | ref a => exact absurd rfl (hv a)
      | _ => rfl
    cases v with
    | ref a =>
      rw [encVal]
      cases hk : encKnown interp a seen with
      | some r =>
        refine ⟨by simp, ?_⟩
        intro recs seen1 h
        simp only [Result.ok.injEq, Prod.mk.injEq] at h
        rw [← h.2]
        exact ⟨hnd, hlt, le_refl _⟩
      | none =>
        obtain ⟨_, hi⟩ := encKnown_none interp a seen hk
        simp only
        cases ho : interp.heap[a]? with
        | none => exact ⟨by simp, by simp⟩
        | some obj =>
          simp only
          by_cases hs : obj.supported = false
          · rw [if_pos hs]
            exact ⟨by simp, by simp⟩
          · rw [if_neg hs]
            have ha : a < interp.heap.length := by
              rcases Nat.lt_or_ge a interp.heap.length with h1 | h1
              · exact h1
              · rw [List.getElem?_eq_none h1] at ho
                exact absurd ho (by simp)
            have hnd1 : (seen ++ [a]).Nodup := by
              rw [List.nodup_append]
              refine ⟨hnd, by simp, ?_⟩
              intro x hx1 hx2
              simp only [List.mem_singleton] at hx2
              subst hx2
              exact indexOf_eq_none x seen hi hx1
            have hlt1 : ∀ x ∈ seen ++ [a], x < interp.heap.length := by
              intro x hx
              rcases List.mem_append.1 hx with hx | hx
              · exact hlt x hx
              · simp only [List.mem_singleton] at hx
                rw [hx]; exact ha
            obtain ⟨h3, h4⟩ := encAll_fuel interp (fun v s => encVal interp n v s) n
              (fun v s => ih v s) obj.children (seen ++ [a]) hnd1 hlt1
              (by simp only [List.length_append, List.length_singleton]; omega)
            cases he : encAll (fun v s => encVal interp n v s) obj.children (seen ++ [a]) with
            | error e =>
              refine ⟨?_, by simp⟩
              intro hc
              simp only [Result.error.injEq] at hc
              rw [hc] at he
              exact h3 he
            | ok q =>
              obtain ⟨rs, s2⟩ := q
              obtain ⟨hnd2, hlt2, hle2⟩ := h4 rs s2 he
              refine ⟨by simp, ?_⟩
              intro recs seen1 h
              simp only [Result.ok.injEq, Prod.mk.injEq] at h
              rw [← h.2]
              simp only [List.length_append, List.length_singleton] at hle2
              exact ⟨hnd2, hlt2, by omega⟩
    | nil =>
      rw [hscalar (by simp)]
      exact ⟨by simp, fun recs seen1 h => by
        simp only [Result.ok.injEq, Prod.mk.injEq] at h; rw [← h.2]; exact ⟨hnd, hlt, le_refl _⟩⟩
    | boolean b =>
      rw [hscalar (by simp)]
      exact ⟨by simp, fun recs seen1 h => by
        simp only [Result.ok.injEq, Prod.mk.injEq] at h; rw [← h.2]; exact ⟨hnd, hlt, le_refl _⟩⟩
    | integer i =>
      rw [hscalar (by simp)]
      exact ⟨by simp, fun recs seen1 h => by
        simp only [Result.ok.injEq, Prod.mk.injEq] at h; rw [← h.2]; exact ⟨hnd, hlt, le_refl _⟩⟩
    | float x =>
      rw [hscalar (by simp)]
      exact ⟨by simp, fun recs seen1 h => by
        simp only [Result.ok.injEq, Prod.mk.injEq] at h; rw [← h.2]; exact ⟨hnd, hlt, le_refl _⟩⟩
    | string s =>
      rw [hscalar (by simp)]
      exact ⟨by simp, fun recs seen1 h => by
        simp only [Result.ok.injEq, Prod.mk.injEq] at h; rw [← h.2]; exact ⟨hnd, hlt, le_refl _⟩⟩

/-- The encoder never stops for lack of fuel: every failure of `persistLua` is
a failure of the specification. -/
theorem persistLua_bounded (interp : Interp) (roots : List Value) :
    persistLua interp roots ≠ Result.error Error.OutOfFuel := by
  obtain ⟨h1, _⟩ := encAll_fuel interp (fun v s => encVal interp (interp.heap.length + 1) v s)
    (interp.heap.length + 1) (fun v s => encVal_fuel interp _ v s) roots []
    List.nodup_nil (by simp) (by simp)
  unfold persistLua
  cases he : encAll (fun v s => encVal interp (interp.heap.length + 1) v s) roots [] with
  | error e =>
    intro hc
    simp only [Result.error.injEq] at hc
    rw [hc] at he
    exact h1 he
  | ok q => simp

/-! ## Permanent references of the stream -/

theorem encAll_perm (interp : Interp) (enc : Value → List Addr → Result (List Record × List Addr))
    (henc : ∀ v seen recs seen1, enc v seen = Result.ok (recs, seen1) →
      ∀ id, Record.permanentRef id ∈ recs → ∃ a, lookupByObject interp.registry a = some id) :
    ∀ vs seen recs seen1, encAll enc vs seen = Result.ok (recs, seen1) →
      ∀ id, Record.permanentRef id ∈ recs → ∃ a, lookupByObject interp.registry a = some id := by
  intro vs
  induction vs with
  | nil =>
    intro seen recs seen1 h id hm
    simp only [encAll, Result.ok.injEq, Prod.mk.injEq] at h
    rw [← h.1] at hm
    simp at hm
  | cons v vs ih =>
    intro seen recs seen1 h id hm
    obtain ⟨r1, s1, r2, h1, h2, hrec⟩ := encAll_cons_ok enc v vs seen recs seen1 h
    rw [hrec] at hm
    rcases List.mem_append.1 hm with hm | hm
    · exact henc v seen r1 s1 h1 id hm
    · exact ih s1 r2 seen1 h2 id hm

theorem encVal_perm (interp : Interp) : ∀ (fuel : Nat) (v : Value) (seen : List Addr)
    (recs : List Record) (seen1 : List Addr),
    encVal interp fuel v seen = Result.ok (recs, seen1) →
    ∀ id, Record.permanentRef id ∈ recs → ∃ a, lookupByObject interp.registry a = some id := by
  intro fuel
  induction fuel with
  | zero =>
    intro v seen recs seen1 h id hm
    rcases encVal_cases interp 0 v seen recs seen1 h with
      ⟨hv, hr, _⟩ | ⟨a, id1, _, hp, hr, _⟩ | ⟨a, i, _, _, _, hr, _⟩ | ⟨a, n, obj, rs, _, hf, _⟩
    · rw [hr] at hm
      cases v <;> simp [scalarRecord] at hm
    · rw [hr] at hm
      simp only [List.mem_singleton, Record.permanentRef.injEq] at hm
      exact ⟨a, by rw [hm, hp]⟩
    · rw [hr] at hm
      simp at hm
    · exact absurd hf (by omega)
  | succ m ih =>
    intro v seen recs seen1 h id hm
    rcases encVal_cases interp (m + 1) v seen recs seen1 h with
      ⟨hv, hr, _⟩ | ⟨a, id1, _, hp, hr, _⟩ | ⟨a, i, _, _, _, hr, _⟩ |
      ⟨a, n, obj, rs, _, hf, _, _, _, _, henc, hr⟩
    · rw [hr] at hm
      cases v <;> simp [scalarRecord] at hm
    · rw [hr] at hm
      simp only [List.mem_singleton, Record.permanentRef.injEq] at hm
      exact ⟨a, by rw [hm, hp]⟩
    · rw [hr] at hm
      simp at hm
    · have hn : n = m := by omega
      subst hn
      rw [hr] at hm
      rcases List.mem_append.1 hm with hm | hm
      · rcases List.mem_append.1 hm with hm | hm
        · exact absurd hm (opening_no_permanent obj _ id)
        · exact encAll_perm interp _ (fun v s r s1 h => ih v s r s1 h) _ _ _ _ henc id hm
      · simp at hm

theorem Resolvable_of_SameIdentifiers (source target : Interp) (roots : List Value)
    (stream : List Record) (h : persistLua source roots = Result.ok stream)
    (hid : SameIdentifiers source target) : Resolvable target.registry stream := by
  obtain ⟨seen, he⟩ := persistLua_ok source roots stream h
  intro id hm
  obtain ⟨a, ha⟩ := encAll_perm source _
    (fun v s r s1 h => encVal_perm source _ v s r s1 h) roots [] stream seen he id hm
  exact hid a id ha

/-! ## The decoded graph -/

theorem forall₂_getElem {α β : Type} {r : α → β → Prop} :
    ∀ {l : List α} {m : List β}, List.Forall₂ r l m → ∀ (i : Nat) (b : β), m[i]? = some b →
      ∃ a, l[i]? = some a ∧ r a b := by
  intro l m h
  induction h with
  | nil => intro i b hb; simp at hb
  | cons h1 _ ih =>
    intro i b hb
    cases i with
    | zero =>
      simp only [List.getElem?_cons_zero, Option.some.injEq] at hb
      subst hb
      exact ⟨_, by simp, h1⟩
    | succ k =>
      simp only [List.getElem?_cons_succ] at hb
      obtain ⟨a, ha, hr⟩ := ih k b hb
      exact ⟨a, by simpa using ha, hr⟩

theorem lookupByObject_mem (reg : List (String × Addr)) (a : Addr) (id : String)
    (h : lookupByObject reg a = some id) : (id, a) ∈ reg := by
  induction reg with
  | nil => simp [lookupByObject] at h
  | cons e rest ih =>
    obtain ⟨id1, b⟩ := e
    unfold lookupByObject at h
    by_cases hb : b = a
    · rw [if_pos hb] at h
      injection h with h
      simp [h, hb]
    · rw [if_neg hb] at h
      exact List.mem_cons_of_mem _ (ih h)

theorem lookupByObject_new (target : Interp) (hreg : RegistryOk target) (i : Nat) :
    lookupByObject target.registry (target.heap.length + i) = none := by
  cases h : lookupByObject target.registry (target.heap.length + i) with
  | none => rfl
  | some id =>
    have hlt : target.heap.length + i < target.heap.length :=
      hreg.1 id _ (lookupByObject_mem _ _ _ h)
    exact absurd hlt (Nat.not_lt.2 (Nat.le_add_right _ _))

/-- The object constructed for the `i`-th object the encoder visited. -/
theorem decoded_at (source target : Interp) (seen : List Addr) (objs : List Obj)
    (hds : List.Forall₂ (Decoded source target.registry target.heap.length seen) objs seen)
    (a : Addr) (i : Nat) (hi : indexOf a seen = some i) :
    lookupByObject source.registry a = none ∧
    ∃ obj, source.heap[a]? = some obj ∧ obj.supported = true ∧
      (target.heap ++ objs)[target.heap.length + i]? =
        some (mapObj (translate source target.registry target.heap.length seen) obj) ∧
      ∀ c ∈ obj.children, ∃ w,
        image source target.registry target.heap.length seen c = some w := by
  obtain ⟨_, hget⟩ := indexOf_lt a seen i hi
  obtain ⟨o, ho, hp, obj, h1, h2, h3, h4⟩ := forall₂_getElem hds i a hget
  refine ⟨hp, obj, h1, h2, ?_, h4⟩
  rw [List.getElem?_append_right (by omega)]
  simpa [h3] using ho

theorem image_isRef (source : Interp) (reg : List (String × Addr)) (base : Nat)
    (seen : List Addr) (a : Addr) (w : Value)
    (h : image source reg base seen (Value.ref a) = some w) : ∃ b, w = Value.ref b := by
  rw [image_ref] at h
  cases hp : lookupByObject source.registry a with
  | some id =>
    rw [hp] at h
    simp only [Option.map_eq_some'] at h
    obtain ⟨t, _, ht⟩ := h
    exact ⟨t, ht.symm⟩
  | none =>
    rw [hp] at h
    simp only [Option.map_eq_some'] at h
    obtain ⟨i, _, hi⟩ := h
    exact ⟨_, hi.symm⟩

theorem image_of_unregistered (source : Interp) (reg : List (String × Addr)) (base : Nat)
    (seen : List Addr) (a : Addr) (w : Value)
    (hp : lookupByObject source.registry a = none)
    (h : image source reg base seen (Value.ref a) = some w) :
    ∃ i, indexOf a seen = some i ∧ w = Value.ref (base + i) := by
  rw [image_ref, hp] at h
  simp only [Option.map_eq_some'] at h
  obtain ⟨i, h1, h2⟩ := h
  exact ⟨i, h1, h2.symm⟩

theorem translate_of_image (source : Interp) (reg : List (String × Addr)) (base : Nat)
    (seen : List Addr) (v w : Value) (h : image source reg base seen v = some w) :
    translate source reg base seen v = w := by
  unfold translate
  rw [h]
  rfl

theorem children_mapObj (f : Value → Value) (obj : Obj) :
    (mapObj f obj).children = obj.children.map f := by
  cases obj with
  | table m es =>
    simp only [mapObj, Obj.children, List.map_cons, List.cons.injEq, true_and]
    induction es with
    | nil => rfl
    | cons e es ih =>
      obtain ⟨k, v⟩ := e
      simp [flatten, ih]
  | closure c ups => rfl
  | userdata t => rfl

/-! ## Structural equality -/

theorem unfold_scalar (interp : Interp) (n : Nat) (v : Value) (hv : ∀ a, v ≠ Value.ref a) :
    unfold interp n v = some (Tree.scalar v) := by
  cases v with
  | ref a => exact absurd rfl (hv a)
  | _ => cases n <;> rfl

theorem unfold_permanent (interp : Interp) (n : Nat) (a : Addr) (id : String)
    (h : lookupByObject interp.registry a = some id) :
    unfold interp n (Value.ref a) = some (Tree.permanent id) := by
  cases n <;> simp [unfold, h]

theorem unfold_succ (interp : Interp) (n : Nat) (a : Addr)
    (h : lookupByObject interp.registry a = none) :
    unfold interp (n + 1) (Value.ref a) =
      match interp.heap[a]? with
      | none => none
      | some (Obj.userdata t) => some (Tree.userdata t)
      | some (Obj.table m es) =>
        match unfold interp n m, unfoldPairs (fun v => unfold interp n v) es with
        | some tm, some ts => some (Tree.table tm ts)
        | _, _ => none
      | some (Obj.closure c ups) =>
        match unfoldAll (fun v => unfold interp n v) ups with
        | some ts => some (Tree.closure c ts)
        | none => none := by
  rw [unfold]
  simp only [h]

theorem unfoldAll_congr (f g : Value → Option Tree) (tr : Value → Value) :
    ∀ (vs : List Value) (ts : List Tree),
      (∀ c ∈ vs, ∀ t, f c = some t → g (tr c) = some t) →
      unfoldAll f vs = some ts → unfoldAll g (vs.map tr) = some ts := by
  intro vs
  induction vs with
  | nil => intro ts _ h; simpa [unfoldAll] using h
  | cons v vs ih =>
    intro ts hc h
    simp only [unfoldAll, List.map_cons] at h ⊢
    cases h1 : f v with
    | none => rw [h1] at h; simp at h
    | some t1 =>
      cases h2 : unfoldAll f vs with
      | none => rw [h1, h2] at h; simp at h
      | some t2 =>
        rw [h1, h2] at h
        rw [hc v (List.mem_cons_self _ _) t1 h1,
          ih t2 (fun c hm t ht => hc c (List.mem_cons_of_mem _ hm) t ht) h2]
        exact h

theorem unfoldPairs_congr (f g : Value → Option Tree) (tr : Value → Value) :
    ∀ (es : List (Value × Value)) (ts : List (Tree × Tree)),
      (∀ c ∈ flatten es, ∀ t, f c = some t → g (tr c) = some t) →
      unfoldPairs f es = some ts →
      unfoldPairs g (es.map (fun e => (tr e.1, tr e.2))) = some ts := by
  intro es
  induction es with
  | nil => intro ts _ h; simpa [unfoldPairs] using h
  | cons e es ih =>
    obtain ⟨k, v⟩ := e
    intro ts hc h
    simp only [unfoldPairs, List.map_cons] at h ⊢
    cases h1 : f k with
    | none => rw [h1] at h; simp at h
    | some t1 =>
      cases h2 : f v with
      | none => rw [h1, h2] at h; simp at h
      | some t2 =>
        cases h3 : unfoldPairs f es with
        | none => rw [h1, h2, h3] at h; simp at h
        | some t3 =>
          rw [h1, h2, h3] at h
          rw [hc k (by simp [flatten]) t1 h1, hc v (by simp [flatten]) t2 h2,
            ih t3 (fun c hm t ht => hc c (by simp [flatten, hm]) t ht) h3]
          exact h

/-- The decoded graph unfolds, from the image of a value, to the tree the
source graph unfolds to from the value. -/
theorem unfold_translate (source target : Interp) (seen : List Addr) (objs : List Obj)
    (hds : List.Forall₂ (Decoded source target.registry target.heap.length seen) objs seen)
    (hreg : RegistryOk target) :
    ∀ (n : Nat) (v w : Value) (t : Tree),
      image source target.registry target.heap.length seen v = some w →
      unfold source n v = some t →
      unfold { heap := target.heap ++ objs, registry := target.registry } n w = some t := by
  intro n
  induction n with
  | zero =>
    intro v w t hi hu
    cases v with
    | ref a =>
      cases hp : lookupByObject source.registry a with
      | some id =>
        rw [unfold_permanent source 0 a id hp] at hu
        rw [image_ref, hp] at hi
        simp only [Option.map_eq_some'] at hi
        obtain ⟨b, hb, hw⟩ := hi
        rw [← hw, ← hu]
        exact unfold_permanent _ 0 b id (hreg.2 id b hb)
      | none =>
        simp [unfold, hp] at hu
    | _ =>
      simp only [image, Option.some.injEq] at hi
      rw [← hi]
      rw [unfold_scalar source 0 _ (by simp)] at hu
      rw [← hu]
      exact unfold_scalar _ 0 _ (by simp)
  | succ n ih =>
    intro v w t hi hu
    cases v with
    | ref a =>
      cases hp : lookupByObject source.registry a with
      | some id =>
        rw [unfold_permanent source (n + 1) a id hp] at hu
        rw [image_ref, hp] at hi
        simp only [Option.map_eq_some'] at hi
        obtain ⟨b, hb, hw⟩ := hi
        rw [← hw, ← hu]
        exact unfold_permanent _ (n + 1) b id (hreg.2 id b hb)
      | none =>
        obtain ⟨i, hidx, hw⟩ := image_of_unregistered source _ _ seen a w hp hi
        obtain ⟨_, obj, ho, hsup, hget, hch⟩ := decoded_at source target seen objs hds a i hidx
        subst hw
        have hnew := lookupByObject_new target hreg i
        rw [unfold_succ source n a hp, ho] at hu
        rw [unfold_succ { heap := target.heap ++ objs, registry := target.registry } n _ hnew]
        simp only
        rw [hget]
        have hstep : ∀ c ∈ obj.children, ∀ t1, unfold source n c = some t1 →
            unfold { heap := target.heap ++ objs, registry := target.registry } n
              (translate source target.registry target.heap.length seen c) = some t1 := by
          intro c hc t1 h1
          obtain ⟨wc, hwc⟩ := hch c hc
          rw [translate_of_image source _ _ seen c wc hwc]
          exact ih c wc t1 hwc h1
        cases obj with
        | userdata tg => simp [Obj.supported] at hsup
        | table m es =>
          simp only [mapObj] at hu ⊢
          cases h1 : unfold source n m with
          | none => rw [h1] at hu; simp at hu
          | some tm =>
            cases h2 : unfoldPairs (fun v => unfold source n v) es with
            | none => rw [h1, h2] at hu; simp at hu
            | some ts =>
              rw [h1, h2] at hu
              rw [hstep m (by simp [Obj.children]) tm h1,
                unfoldPairs_congr _ _ _ es ts
                  (fun c hc t1 ht => hstep c (by simp [Obj.children, hc]) t1 ht) h2]
              exact hu
        | closure cd ups =>
          simp only [mapObj] at hu ⊢
          cases h1 : unfoldAll (fun v => unfold source n v) ups with
          | none => rw [h1] at hu; simp at hu
          | some ts =>
            rw [h1] at hu
            rw [unfoldAll_congr _ _ _ ups ts
              (fun c hc t1 ht => hstep c (by simp [Obj.children, hc]) t1 ht) h1]
            exact hu
    | _ =>
      simp only [image, Option.some.injEq] at hi
      rw [← hi]
      rw [unfold_scalar source (n + 1) _ (by simp)] at hu
      rw [← hu]
      exact unfold_scalar _ (n + 1) _ (by simp)

theorem unpersistLua_ok (target : Interp) (stream : List Record) (roots : List Value)
    (objs : List Obj) (h : decode target stream = Result.ok (roots, objs)) :
    unpersistLua target stream =
      (Result.ok roots, { heap := target.heap ++ objs, registry := target.registry }) := by
  unfold unpersistLua
  rw [h]

/-- C1: when `persistLua` writes a stream for the roots of a source interpreter
and the target registers the source's identifiers (its registry being a
bidirectional mapping onto objects of its heap), `unpersistLua` succeeds on the
stream, and every root whose graph is acyclic (it unfolds to a tree at some
depth) is decoded to a value that unfolds, in the interpreter after the call,
to the same tree: the same scalars, the same table key/value pairs, the same
closure code and upvalues, the same permanent identifiers. -/
theorem roundtrip_acyclic (source target : Interp) (roots : List Value) (stream : List Record)
    (henc : persistLua source roots = Result.ok stream)
    (hids : SameIdentifiers source target) (hreg : RegistryOk target) :
    ∃ roots1, (unpersistLua target stream).1 = Result.ok roots1 ∧
      List.Forall₂ (fun r r1 => ∀ depth t, unfold source depth r = some t →
        unfold (unpersistLua target stream).2 depth r1 = some t) roots roots1 := by
  obtain ⟨seen, objs, hdec, hds, himg⟩ := (persist_decode source target roots stream henc).2
    (Resolvable_of_SameIdentifiers source target roots stream henc hids)
  rw [unpersistLua_ok target stream _ objs hdec]
  refine ⟨_, rfl, ?_⟩
  simp only
  rw [List.forall₂_map_right_iff]
  refine List.forall₂_same.2 ?_
  intro r hr depth t hu
  obtain ⟨w, hw⟩ := himg r hr
  rw [translate_of_image source _ _ seen r w hw]
  exact unfold_translate source target seen objs hds hreg depth r w t hw hu

theorem sampleTarget_registryOk : RegistryOk sampleTarget := by
  constructor
  · intro id t h
    simp only [sampleTarget, List.mem_cons, Prod.mk.injEq, List.mem_singleton] at h
    rcases h with ⟨_, rfl⟩ | ⟨_, rfl⟩ | h
    · decide
    · decide
    · simp at h
  · intro id t h
    simp only [sampleTarget, lookupByIdentifier] at h
    split at h
    · injection h with h
      subst h
      rename_i h1
      rw [← h1]
      decide
    · split at h
      · injection h with h
        subst h
        rename_i h1
        rw [← h1]
        decide
      · simp at h

theorem sampleSource_sameIdentifiers : SameIdentifiers sampleSource sampleTarget := by
  intro a id h
  simp only [sampleSource, lookupByObject] at h
  split at h
  · injection h with h
    rw [← h]
    exact ⟨1, by decide⟩
  · simp at h

theorem roundtrip_acyclic_witness :
    (unfold sampleSource 3 (Value.ref 0)).isSome = true ∧
    ∃ roots1, (unpersistLua sampleTarget sampleStream).1 = Result.ok roots1 ∧
      List.Forall₂ (fun r r1 => ∀ depth t, unfold sampleSource depth r = some t →
        unfold (unpersistLua sampleTarget sampleStream).2 depth r1 = some t)
        [Value.ref 0] roots1 :=
  ⟨by decide,
   roundtrip_acyclic sampleSource sampleTarget [Value.ref 0] sampleStream (by decide)
    sampleSource_sameIdentifiers sampleTarget_registryOk⟩

/-! ## Cycles -/

theorem child_translate (source target : Interp) (seen : List Addr) (objs : List Obj)
    (hds : List.Forall₂ (Decoded source target.registry target.heap.length seen) objs seen)
    (hreg : RegistryOk target) (a b : Addr) (i : Nat) (hc : Child source a b)
    (hi : indexOf a seen = some i) :
    ∃ b1, image source target.registry target.heap.length seen (Value.ref b) =
        some (Value.ref b1) ∧
      Child { heap := target.heap ++ objs, registry := target.registry }
        (target.heap.length + i) b1 := by
  obtain ⟨_, obj, ho, hmem⟩ := hc
  obtain ⟨_, obj1, ho1, _, hget, hch⟩ := decoded_at source target seen objs hds a i hi
  rw [ho] at ho1
  injection ho1 with ho1
  subst ho1
  obtain ⟨w, hw⟩ := hch _ hmem
  obtain ⟨b1, hb1⟩ := image_isRef source _ _ seen b w hw
  subst hb1
  refine ⟨b1, hw, lookupByObject_new target hreg i, _, hget, ?_⟩
  rw [children_mapObj, ← translate_of_image source _ _ seen _ _ hw]
  exact List.mem_map_of_mem _ hmem

theorem contains_translate (source target : Interp) (seen : List Addr) (objs : List Obj)
    (hds : List.Forall₂ (Decoded source target.registry target.heap.length seen) objs seen)
    (hreg : RegistryOk target) (x : Addr) (i : Nat) (hi : indexOf x seen = some i) :
    ∀ y, Contains source x y →
      ∃ y1, image source target.registry target.heap.length seen (Value.ref y) =
          some (Value.ref y1) ∧
        Contains { heap := target.heap ++ objs, registry := target.registry }
          (target.heap.length + i) y1 := by
  intro y h
  induction h with
  | single hc =>
    obtain ⟨b1, h1, h2⟩ := child_translate source target seen objs hds hreg x _ i hc hi
    exact ⟨b1, h1, Relation.TransGen.single h2⟩
  | tail _ hyz ih =>
    obtain ⟨y1, h1, h2⟩ := ih
    obtain ⟨j, hj, hw⟩ := image_of_unregistered source _ _ seen _ _ hyz.1 h1
    injection hw with hw
    subst hw
    obtain ⟨z1, h3, h4⟩ := child_translate source target seen objs hds hreg _ _ j hyz hj
    exact ⟨z1, h3, Relation.TransGen.tail h2 h4⟩

theorem contains_unregistered (interp : Interp) (x y : Addr) (h : Contains interp x y) :
    lookupByObject interp.registry x = none := by
  induction h with
  | single hc => exact hc.1
  | tail _ _ ih => exact ih

/-- C2: the encoder never stops for lack of fuel, whatever the graph (the
decoder is a fold over the records); when `persistLua` writes a stream for a
root table that contains itself, directly or transitively (in the graph that
is persisted, where a permanent object is a leaf), `unpersistLua` succeeds on
it and the decoded root is a table that contains itself; and for the root
`{a = 1, b = <root>}` decoded into a fresh interpreter, the field `a` of the
decoded table is 1 and its field `b` is the decoded table. -/
theorem cycle_support :
    (∀ (source : Interp) (roots : List Value),
      persistLua source roots ≠ Result.error Error.OutOfFuel) ∧
    (∀ (source target : Interp) (a : Addr) (m : Value) (es : List (Value × Value))
      (stream : List Record),
      source.heap[a]? = some (Obj.table m es) → Contains source a a →
      persistLua source [Value.ref a] = Result.ok stream →
      SameIdentifiers source target → RegistryOk target →
      ∃ b m1 es1, (unpersistLua target stream).1 = Result.ok [Value.ref b] ∧
        (unpersistLua target stream).2.heap[b]? = some (Obj.table m1 es1) ∧
        Contains (unpersistLua target stream).2 b b) ∧
    (persistLua selfTable [Value.ref 0] = Result.ok selfStream ∧
      (unpersistLua freshInterp selfStream).1 = Result.ok [Value.ref 0] ∧
      tableField (unpersistLua freshInterp selfStream).2 (Value.ref 0) (Value.string [97]) =
        some (Value.integer 1) ∧
      tableField (unpersistLua freshInterp selfStream).2 (Value.ref 0) (Value.string [98]) =
        some (Value.ref 0)) := by
  refine ⟨persistLua_bounded, ?_, by decide⟩
  intro source target a m es stream ho hself henc hids hreg
  obtain ⟨seen, objs, hdec, hds, himg⟩ := (persist_decode source target _ stream henc).2
    (Resolvable_of_SameIdentifiers source target _ stream henc hids)
  obtain ⟨w, hw⟩ := himg (Value.ref a) (by simp)
  obtain ⟨i, hi, hwi⟩ := image_of_unregistered source _ _ seen a w
    (contains_unregistered source a a hself) hw
  subst hwi
  obtain ⟨_, obj, ho1, _, hget, _⟩ := decoded_at source target seen objs hds a i hi
  rw [ho] at ho1
  injection ho1 with ho1
  subst ho1
  obtain ⟨y1, h1, h2⟩ := contains_translate source target seen objs hds hreg a i hi a hself
  rw [hw] at h1
  injection h1 with h1
  injection h1 with h1
  subst h1
  rw [unpersistLua_ok target stream _ objs hdec]
  refine ⟨target.heap.length + i, _, _, ?_, hget, h2⟩
  simp [translate_of_image source _ _ seen _ _ hw]

theorem selfTable_contains : Contains selfTable 0 0 :=
  Relation.TransGen.single ⟨rfl, _, rfl, by decide⟩

theorem cycle_support_witness :
    ∃ b m1 es1, (unpersistLua freshInterp selfStream).1 = Result.ok [Value.ref b] ∧
      (unpersistLua freshInterp selfStream).2.heap[b]? = some (Obj.table m1 es1) ∧
      Contains (unpersistLua freshInterp selfStream).2 b b :=
  cycle_support.2.1 selfTable freshInterp 0 _ _ selfStream rfl selfTable_contains (by decide)
    (fun a id h => by simp [selfTable, lookupByObject] at h)
    ⟨fun id t h => by simp [freshInterp] at h,
     fun id t h => by simp [freshInterp, lookupByIdentifier] at h⟩

/-! ## Unknown permanents -/

end Lua
